import Mathlib

/-!
Verification of the content privacy sanitization engine of the
chicago-newsletter-aggregator backend.

This file is a shallow embedding of `backend/ingest/email/email_parser.py`
(`sanitize_content` and its helpers), plus theorems about it.

Modelling conventions:
* Python strings are `List Char`.  Matching is restricted to the ASCII range
  (the repository's patterns and fixtures are ASCII).
* The regular expressions of the pattern set are modelled by the AST `RE`
  (literals, character classes, `.`, concatenation, alternation, star); all
  matching is case-insensitive, as every `re` call in `sanitize_content`
  passes `re.IGNORECASE`.  A `text_patterns` entry is a `TextPattern`: the
  list of its top-level alternatives, because `sanitize_content` splices the
  raw pattern text into `rf'^\s*{pattern}\s*$'`, where a top-level `|` binds
  weaker than the added anchors.
* The BeautifulSoup document is modelled by the tree `HNode` (text nodes and
  element nodes); `html.parser` lowercases tag names, so trees carry
  lowercase tags.  CSS selectors are modelled as simple compound selectors
  (optional tag name, optional id, class names), which covers the selector
  forms used by the repository's configuration; combinators are out of scope.
* Exceptions are modelled by `Option`: the HTML parse used inside the
  `try`/`except` block is an explicit `parseHtml : List Char → Option` input,
  and `none` plays the role of a raised exception.
* The module-level pattern cache and the `PRIVACY_STRIP_PHRASES` environment
  variable are modelled as explicit ambient-state parameters of
  `sanitize_content`, since file and environment access cannot occur inside
  a pure embedding.
-/

/-! ### Python string primitives -/

/-- Whitespace characters: Python's `\s` class and `str.strip` default set,
restricted to ASCII. -/
def wsChars : List Char := [' ', '\t', '\n', '\r', '\x0b', '\x0c']

/-- Decidable whitespace test. -/
def pyWs (c : Char) : Bool := wsChars.contains c

/-- Python `str.strip()`: remove leading and trailing whitespace. -/
def pyStrip (s : List Char) : List Char :=
  ((s.dropWhile pyWs).reverse.dropWhile pyWs).reverse

/-- Case-insensitive test that `p` is a prefix of `s` (Python lowercases via
`str.lower`/`re.IGNORECASE`; `Char.toLower` models it over ASCII). -/
def ciPrefixOf : List Char → List Char → Bool
  | [], _ => true
  | _ :: _, [] => false
  | a :: p, b :: s => (a.toLower == b.toLower) && ciPrefixOf p s

/-- Case-insensitive substring occurrence test. -/
def ciOccurs (p s : List Char) : Bool := s.tails.any (fun t => ciPrefixOf p t)

/-- Line-boundary characters of Python `str.splitlines`. -/
def lineBreakChars : List Char :=
  ['\n', '\r', '\x0b', '\x0c', '\x1c', '\x1d', '\x1e', '\x85', '\u2028', '\u2029']

/-- Decidable line-boundary test. -/
def isLineBreak (c : Char) : Bool := lineBreakChars.contains c

/-- Worker for `splitlines`; `acc` holds the reversed current line. -/
def splitlinesAux : List Char → List Char → List (List Char)
  | [], acc => if acc.isEmpty then [] else [acc.reverse]
  | '\r' :: '\n' :: rest, acc => acc.reverse :: splitlinesAux rest []
  | c :: rest, acc =>
    if isLineBreak c then acc.reverse :: splitlinesAux rest []
    else splitlinesAux rest (c :: acc)

/-- Python `str.splitlines()`: split at line boundaries (`\r\n` counts as a
single boundary), not keeping the boundary characters and not producing a
final empty line for a trailing boundary. -/
def splitlines (s : List Char) : List (List Char) := splitlinesAux s []

/-- Scanner for `subPhrase`: at skip count `0` it tries a (case-insensitive)
match of the phrase at the current position; after a match the `p.length - 1`
remaining matched characters are consumed via the skip count.  Structural in
the subject string. -/
def subPhraseGo (p repl : List Char) : Nat → List Char → List Char
  | _, [] => []
  | Nat.succ k, _ :: rest => subPhraseGo p repl k rest
  | 0, c :: rest =>
    if ciPrefixOf p (c :: rest) then repl ++ subPhraseGo p repl (p.length - 1) rest
    else c :: subPhraseGo p repl 0 rest

/-- One pass of `re.sub(re.escape(p), repl, s, flags=re.IGNORECASE)`: the
escaped pattern matches the phrase literally, so this is a leftmost,
non-overlapping, case-insensitive global replacement.  The callers in
`sanitize_content` only pass non-empty phrases (the empty phrase is mapped
to the identity here). -/
def subPhrase (p repl s : List Char) : List Char :=
  match p with
  | [] => s
  | _ :: _ => subPhraseGo p repl 0 s

/-- Scanner for `ciCount`, mirroring `subPhraseGo`. -/
def ciCountGo (p : List Char) : Nat → List Char → Nat
  | _, [] => 0
  | Nat.succ k, _ :: rest => ciCountGo p k rest
  | 0, c :: rest =>
    if ciPrefixOf p (c :: rest) then 1 + ciCountGo p (p.length - 1) rest
    else ciCountGo p 0 rest

/-- Count of leftmost non-overlapping case-insensitive occurrences of `p`,
mirroring the scan of `subPhrase`. -/
def ciCount (p s : List Char) : Nat :=
  match p with
  | [] => 0
  | _ :: _ => ciCountGo p 0 s

/-- The fixed redaction marker of `sanitize_content`. -/
def redactionMarker : List Char := "[REDACTED]".data

/-- Step 3 of `sanitize_content` (lines 111-115): replace every phrase in
turn with the redaction marker. -/
def stripPhrases (phrases : List (List Char)) (s : List Char) : List Char :=
  phrases.foldl (fun acc p => subPhrase p redactionMarker acc) s

/-- Lines 108-109 of `sanitize_content`: split the raw environment value on
commas, strip each entry, and keep the non-empty ones. -/
def parseStripPhrases (env : List Char) : List (List Char) :=
  ((env.splitOn ',').map pyStrip).filter (fun p => !p.isEmpty)

/-! ### Regular expressions

Case-insensitive matching engine by Brzozowski derivatives, with a
language-membership semantics `Lang` proved equivalent to the executable
matcher. -/

/-- Abstract syntax of the (anchor-free) regular expressions appearing in the
pattern set: literal characters, character classes, `.`, concatenation,
alternation and Kleene star. -/
inductive RE where
  | emp : RE
  | eps : RE
  | lit (c : Char) : RE
  | cls (cs : List Char) : RE
  | dot : RE
  | seq (a b : RE) : RE
  | alt (a b : RE) : RE
  | star (a : RE) : RE
deriving Repr, DecidableEq

/-- Does the regex accept the empty string? -/
def RE.nullable : RE → Bool
  | .emp => false
  | .eps => true
  | .lit _ => false
  | .cls _ => false
  | .dot => false
  | .seq a b => a.nullable && b.nullable
  | .alt a b => a.nullable || b.nullable
  | .star _ => true

/-- Brzozowski derivative with respect to one input character; literal and
class comparisons are case-insensitive (`re.IGNORECASE`), and `.` matches
anything except a newline (Python default, no `re.DOTALL`). -/
def RE.deriv (r : RE) (c : Char) : RE :=
  match r with
  | .emp => .emp
  | .eps => .emp
  | .lit d => if d.toLower = c.toLower then .eps else .emp
  | .cls cs => if cs.any (fun d => d.toLower = c.toLower) then .eps else .emp
  | .dot => if c = '\n' then .emp else .eps
  | .seq a b => if a.nullable then .alt (.seq (a.deriv c) b) (b.deriv c) else .seq (a.deriv c) b
  | .alt a b => .alt (a.deriv c) (b.deriv c)
  | .star a => .seq (a.deriv c) (.star a)

/-- Total match of the whole string (Python `re.fullmatch`, and the effect of
surrounding a pattern with `^`/`$` under `re.match`). -/
def reFull (r : RE) (s : List Char) : Bool :=
  (s.foldl RE.deriv r).nullable

/-- Python `re.match`: some prefix of `s` matches `r`. -/
def reMatchPy (r : RE) (s : List Char) : Bool :=
  s.inits.any (fun u => reFull r u)

/-- Python `re.search`: some substring of `s` matches `r`. -/
def reSearch (r : RE) (s : List Char) : Bool :=
  s.tails.any (fun t => reMatchPy r t)

/-- Regex matching a literal word, one `lit` per character. -/
def litWord : List Char → RE
  | [] => .eps
  | c :: cs => .seq (.lit c) (litWord cs)

/-- The `\s` character class. -/
def wsRE : RE := .cls wsChars

/-- The `\s*` fragment that `sanitize_content` splices around a text pattern. -/
def wsStar : RE := .star wsRE

/-- A `text_patterns` entry, split at its top-level alternation bars: the
regex denoted is `first | rest₀ | rest₁ | ...`.  Keeping the alternative
list explicit is needed to model the textual splice
`rf'^\s*{pattern}\s*$'`, whose anchors attach only to the outermost
alternatives. -/
structure TextPattern where
  first : RE
  rest : List RE
deriving Repr, DecidableEq

/-- The regex denoted by a `TextPattern` (used where the pattern is passed to
`re.search` unchanged, i.e. for anchor link text in HTML mode). -/
def TextPattern.toRE (p : TextPattern) : RE := p.rest.foldl RE.alt p.first

/-- Alternatives after the first, of which the last one receives the `\s*$`
suffix of the splice: `re.match` of `a\s*$` succeeds exactly when `a\s*`
matches the whole line. -/
def strictTail : RE → List RE → List Char → Bool
  | cur, [], line => reFull (.seq cur wsStar) line
  | cur, r :: rs, line => reMatchPy cur line || strictTail r rs line

/-- Lines 93-95 of `sanitize_content`:
`re.match(rf'^\s*{pattern}\s*$', line, re.IGNORECASE)`.  The first
alternative receives `^\s*` (which under `re.match` is a prefix match of
`\s*⬝first`), the last receives `\s*$`, and middle alternatives are bare
prefix matches; a single-alternative pattern is anchored at both ends. -/
def strictLineMatch (p : TextPattern) (line : List Char) : Bool :=
  match p.rest with
  | [] => reFull (.seq wsStar (.seq p.first wsStar)) line
  | r :: rs => reMatchPy (.seq wsStar p.first) line || strictTail r rs line

/-- Words of the Kleene star of a language. -/
inductive StarLang (L : List Char → Prop) : List Char → Prop where
  | nil : StarLang L []
  | app {u v : List Char} : L u → StarLang L v → StarLang L (u ++ v)

/-- Language semantics of `RE`, mirroring `RE.deriv`'s case-insensitive
character comparisons. -/
def Lang : RE → List Char → Prop
  | .emp, _ => False
  | .eps, s => s = []
  | .lit d, s => ∃ c, s = [c] ∧ d.toLower = c.toLower
  | .cls cs, s => ∃ c, s = [c] ∧ ∃ d ∈ cs, d.toLower = c.toLower
  | .dot, s => ∃ c, s = [c] ∧ c ≠ '\n'
  | .seq a b, s => ∃ u v, s = u ++ v ∧ Lang a u ∧ Lang b v
  | .alt a b, s => Lang a s ∨ Lang b s
  | .star a, s => StarLang (Lang a) s

theorem nullable_iff (r : RE) : r.nullable = true ↔ Lang r [] := by
  induction r with
  | emp => simp [RE.nullable, Lang]
  | eps => simp [RE.nullable, Lang]
  | lit d => simp [RE.nullable, Lang]
  | cls cs => simp [RE.nullable, Lang]
  | dot => simp [RE.nullable, Lang]
  | seq a b iha ihb =>
    simp only [RE.nullable, Lang, Bool.and_eq_true, iha, ihb]
    constructor
    · rintro ⟨ha, hb⟩
      exact ⟨[], [], rfl, ha, hb⟩
    · rintro ⟨u, v, huv, ha, hb⟩
      rcases List.append_eq_nil.mp huv.symm with ⟨hu, hv⟩
      subst hu; subst hv
      exact ⟨ha, hb⟩
  | alt a b iha ihb =>
    simp [RE.nullable, Lang, iha, ihb]
  | star a ih =>
    simp only [RE.nullable, Lang, true_iff]
    exact StarLang.nil

theorem starLang_cons {L : List Char → Prop} {c : Char} {s : List Char}
    (h : StarLang L (c :: s)) :
    ∃ u v, s = u ++ v ∧ L (c :: u) ∧ StarLang L v := by
  generalize hx : c :: s = x at h
  induction h generalizing c s with
  | nil => simp at hx
  | app hu hv ih =>
    rename_i u v
    cases u with
    | nil =>
      simp only [List.nil_append] at hx
      exact ih hx
    | cons d u2 =>
      simp only [List.cons_append, List.cons.injEq] at hx
      obtain ⟨hdc, hrest⟩ := hx
      subst hdc
      exact ⟨u2, v, hrest, hu, hv⟩

theorem deriv_iff (r : RE) (c : Char) (s : List Char) :
    Lang (r.deriv c) s ↔ Lang r (c :: s) := by
  induction r generalizing s with
  | emp => simp [RE.deriv, Lang]
  | eps => simp [RE.deriv, Lang]
  | lit d =>
    by_cases h : d.toLower = c.toLower
    · simp only [RE.deriv, if_pos h, Lang]
      constructor
      · intro hs
        exact ⟨c, by rw [hs], h⟩
      · rintro ⟨e, he, _⟩
        simp only [List.cons.injEq] at he
        exact he.2
    · simp only [RE.deriv, if_neg h, Lang]
      constructor
      · intro hf
        exact absurd hf id
      · rintro ⟨e, he, hde⟩
        simp only [List.cons.injEq] at he
        exact absurd (he.1 ▸ hde) h
  | cls cs =>
    by_cases h : cs.any (fun d => d.toLower = c.toLower)
    · simp only [RE.deriv, if_pos h, Lang]
      simp only [List.any_eq_true, decide_eq_true_eq] at h
      constructor
      · intro hs
        exact ⟨c, by rw [hs], h⟩
      · rintro ⟨e, he, _⟩
        simp only [List.cons.injEq] at he
        exact he.2
    · simp only [RE.deriv, if_neg h, Lang]
      simp only [List.any_eq_true, decide_eq_true_eq] at h
      constructor
      · intro hf
        exact absurd hf id
      · rintro ⟨e, he, hde⟩
        simp only [List.cons.injEq] at he
        exact absurd (he.1 ▸ hde) h
  | dot =>
    by_cases h : c = '\n'
    · simp only [RE.deriv, if_pos h, Lang]
      constructor
      · intro hf
        exact absurd hf id
      · rintro ⟨e, he, hne⟩
        simp only [List.cons.injEq] at he
        exact absurd (he.1 ▸ h) hne
    · simp only [RE.deriv, if_neg h, Lang]
      constructor
      · intro hs
        exact ⟨c, by rw [hs], h⟩
      · rintro ⟨e, he, _⟩
        simp only [List.cons.injEq] at he
        exact he.2
  | seq a b iha ihb =>
    by_cases hn : a.nullable
    · simp only [RE.deriv, if_pos hn, Lang]
      constructor
      · rintro (⟨u, v, hs, hu, hv⟩ | hb)
        · exact ⟨c :: u, v, by rw [hs, List.cons_append], (iha u).mp hu, hv⟩
        · exact ⟨[], c :: s, rfl, (nullable_iff a).mp hn, (ihb s).mp hb⟩
      · rintro ⟨u, v, hs, hu, hv⟩
        cases u with
        | nil =>
          simp only [List.nil_append] at hs
          right
          exact (ihb s).mpr (hs ▸ hv)
        | cons d u2 =>
          simp only [List.cons_append, List.cons.injEq] at hs
          left
          exact ⟨u2, v, hs.2, (iha u2).mpr (hs.1 ▸ hu), hv⟩
    · simp only [RE.deriv, if_neg hn, Lang]
      constructor
      · rintro ⟨u, v, hs, hu, hv⟩
        exact ⟨c :: u, v, by rw [hs, List.cons_append], (iha u).mp hu, hv⟩
      · rintro ⟨u, v, hs, hu, hv⟩
        cases u with
        | nil =>
          exact absurd ((nullable_iff a).mpr hu) (by simpa using hn)
        | cons d u2 =>
          simp only [List.cons_append, List.cons.injEq] at hs
          exact ⟨u2, v, hs.2, (iha u2).mpr (hs.1 ▸ hu), hv⟩
  | alt a b iha ihb =>
    simp [RE.deriv, Lang, iha, ihb]
  | star a ih =>
    simp only [RE.deriv, Lang]
    constructor
    · rintro ⟨u, v, hs, hu, hv⟩
      have : Lang a (c :: u) := (ih u).mp hu
      have happ : StarLang (Lang a) ((c :: u) ++ v) := StarLang.app this hv
      simpa [hs] using happ
    · intro h
      obtain ⟨u, v, hs, hu, hv⟩ := starLang_cons h
      exact ⟨u, v, hs, (ih u).mpr hu, hv⟩

theorem reFull_iff (r : RE) (s : List Char) : reFull r s = true ↔ Lang r s := by
  induction s generalizing r with
  | nil => simpa [reFull] using nullable_iff r
  | cons c rest ih =>
    have : reFull r (c :: rest) = reFull (r.deriv c) rest := rfl
    rw [this, ih, deriv_iff]

theorem reMatchPy_iff (r : RE) (s : List Char) :
    reMatchPy r s = true ↔ ∃ u v, s = u ++ v ∧ Lang r u := by
  simp only [reMatchPy, List.any_eq_true, List.mem_inits]
  constructor
  · rintro ⟨u, hu, hfull⟩
    obtain ⟨v, hv⟩ := hu
    exact ⟨u, v, hv.symm, (reFull_iff r u).mp hfull⟩
  · rintro ⟨u, v, hs, hu⟩
    exact ⟨u, ⟨v, hs.symm⟩, (reFull_iff r u).mpr hu⟩

theorem reSearch_iff (r : RE) (s : List Char) :
    reSearch r s = true ↔ ∃ x m y, s = x ++ m ++ y ∧ Lang r m := by
  simp only [reSearch, List.any_eq_true, List.mem_tails]
  constructor
  · rintro ⟨t, ht, hmatch⟩
    obtain ⟨x, hx⟩ := ht
    obtain ⟨m, y, hmy, hm⟩ := (reMatchPy_iff r t).mp hmatch
    exact ⟨x, m, y, by rw [← hx, hmy, List.append_assoc], hm⟩
  · rintro ⟨x, m, y, hs, hm⟩
    refine ⟨m ++ y, ⟨x, by rw [← List.append_assoc, ← hs]⟩, ?_⟩
    exact (reMatchPy_iff r (m ++ y)).mpr ⟨m, y, rfl, hm⟩

/-! ### Whitespace and literal-word languages -/

theorem ws_toLower_self {c : Char} (h : c ∈ wsChars) : c.toLower = c := by
  fin_cases h <;> decide

theorem toLower_mem_ws {c : Char} (h : c.toLower ∈ wsChars) : c ∈ wsChars := by
  unfold Char.toLower at h
  simp only [] at h
  by_cases hn : c.toNat ≥ 65 ∧ c.toNat ≤ 90
  case pos =>
    rw [if_pos hn] at h
    exfalso
    have hv : Nat.isValidChar (c.toNat + 32) := Or.inl (by omega)
    have hval : (Char.ofNat (c.toNat + 32)).toNat = c.toNat + 32 := by
      rw [Char.ofNat, dif_pos hv]
      rfl
    have hle : ∀ d : Char, d ∈ wsChars → d.toNat ≤ 32 := by decide
    have h32 := hle _ h
    rw [hval] at h32
    omega
  case neg =>
    rw [if_neg hn] at h
    exact h

theorem pyWs_iff {c : Char} : pyWs c = true ↔ c ∈ wsChars := by
  simp [pyWs, List.contains, List.elem_iff]

theorem Lang_wsRE {s : List Char} :
    Lang wsRE s ↔ ∃ c, s = [c] ∧ pyWs c = true := by
  show (∃ c, s = [c] ∧ ∃ d ∈ wsChars, d.toLower = c.toLower) ↔ _
  constructor
  · rintro ⟨c, hs, d, hd, hdc⟩
    refine ⟨c, hs, ?_⟩
    rw [pyWs_iff]
    apply toLower_mem_ws
    rw [← hdc, ws_toLower_self hd]
    exact hd
  · rintro ⟨c, hs, hc⟩
    exact ⟨c, hs, c, pyWs_iff.mp hc, rfl⟩

theorem StarLang_ws {s : List Char} :
    StarLang (Lang wsRE) s ↔ ∀ c ∈ s, pyWs c = true := by
  constructor
  · intro h
    induction h with
    | nil => simp
    | app hu _ ih =>
      rename_i u v
      intro c hc
      rcases List.mem_append.mp hc with hcu | hcv
      · obtain ⟨e, he, hws⟩ := Lang_wsRE.mp hu
        subst he
        simp only [List.mem_singleton] at hcu
        exact hcu ▸ hws
      · exact ih c hcv
  · intro h
    induction s with
    | nil => exact StarLang.nil
    | cons c rest ih =>
      have h1 : Lang wsRE [c] := Lang_wsRE.mpr ⟨c, rfl, h c (by simp)⟩
      have h2 : StarLang (Lang wsRE) rest := ih (fun e he => h e (by simp [he]))
      exact StarLang.app (u := [c]) h1 h2

theorem Lang_litWord {w s : List Char} :
    Lang (litWord w) s ↔ s.map Char.toLower = w.map Char.toLower := by
  induction w generalizing s with
  | nil =>
    show s = [] ↔ _
    simp
  | cons c cs ih =>
    show (∃ u v, s = u ++ v ∧ (∃ e, u = [e] ∧ c.toLower = e.toLower) ∧ Lang (litWord cs) v) ↔ _
    constructor
    · rintro ⟨u, v, hs, ⟨e, hu, hce⟩, hv⟩
      subst hu
      subst hs
      simp only [List.cons_append, List.nil_append, List.map_cons, List.cons.injEq]
      exact ⟨hce.symm, ih.mp hv⟩
    · intro h
      cases s with
      | nil => simp at h
      | cons e rest =>
        simp only [List.map_cons, List.cons.injEq] at h
        exact ⟨[e], rest, rfl, ⟨e, rfl, h.1.symm⟩, ih.mpr h.2⟩

/-- Syntactic check that every string in the language of `r` is free of
whitespace characters (sufficient condition used to relate the spliced
`^\s*{pattern}\s*$` form to matching against the stripped line). -/
def RE.noWs : RE → Bool
  | .emp => true
  | .eps => true
  | .lit c => !pyWs c.toLower
  | .cls cs => cs.all (fun d => !pyWs d.toLower)
  | .dot => false
  | .seq a b => a.noWs && b.noWs
  | .alt a b => a.noWs && b.noWs
  | .star a => a.noWs

theorem noWs_sound {r : RE} (hr : r.noWs = true) {s : List Char}
    (hs : Lang r s) : ∀ c ∈ s, pyWs c = false := by
  induction r generalizing s with
  | emp => exact absurd hs id
  | eps =>
    intro c hc
    rw [show s = [] from hs] at hc
    simp at hc
  | lit d =>
    obtain ⟨e, he, hde⟩ := hs
    subst he
    intro c hc
    simp only [List.mem_singleton] at hc
    subst hc
    simp only [RE.noWs, Bool.not_eq_eq_eq_not, Bool.not_true] at hr
    by_contra hcw
    simp only [Bool.not_eq_false] at hcw
    have hcmem := pyWs_iff.mp hcw
    have : d.toLower = c := by rw [hde, ws_toLower_self hcmem]
    rw [← this] at hcmem
    rw [pyWs_iff.mpr hcmem] at hr
    exact absurd hr (by simp)
  | cls cs =>
    obtain ⟨e, he, d, hd, hde⟩ := hs
    subst he
    intro c hc
    simp only [List.mem_singleton] at hc
    subst hc
    simp only [RE.noWs, List.all_eq_true, Bool.not_eq_eq_eq_not, Bool.not_true] at hr
    by_contra hcw
    simp only [Bool.not_eq_false] at hcw
    have hcmem := pyWs_iff.mp hcw
    have : d.toLower = c := by rw [hde, ws_toLower_self hcmem]
    rw [← this] at hcmem
    have h1 := hr d hd
    rw [pyWs_iff.mpr hcmem] at h1
    exact absurd h1 (by simp)
  | dot => simp [RE.noWs] at hr
  | seq a b iha ihb =>
    simp only [RE.noWs, Bool.and_eq_true] at hr
    obtain ⟨u, v, huv, hu, hv⟩ := hs
    subst huv
    intro c hc
    rcases List.mem_append.mp hc with h | h
    · exact iha hr.1 hu c h
    · exact ihb hr.2 hv c h
  | alt a b iha ihb =>
    simp only [RE.noWs, Bool.and_eq_true] at hr
    rcases hs with h | h
    · exact iha hr.1 h
    · exact ihb hr.2 h
  | star a ih =>
    simp only [RE.noWs] at hr
    induction hs with
    | nil => simp
    | app hu _ ihs =>
      intro c hc
      rcases List.mem_append.mp hc with h | h
      · exact ih hr hu c h
      · exact ihs c h

/-! ### Stripping lemmas -/

theorem dropWhile_append_all {p : Char → Bool} {x z : List Char}
    (h : ∀ c ∈ x, p c = true) : (x ++ z).dropWhile p = z.dropWhile p := by
  induction x with
  | nil => simp
  | cons c rest ih =>
    simp only [List.cons_append, List.dropWhile_cons, h c (by simp)]
    exact ih (fun e he => h e (by simp [he]))

theorem dropWhile_all_nil {p : Char → Bool} {x : List Char}
    (h : ∀ c ∈ x, p c = true) : x.dropWhile p = [] := by
  have := dropWhile_append_all (z := []) h
  simpa using this

/-- When a list splits into whitespace, a whitespace-free core, and
whitespace, `pyStrip` returns exactly the core. -/
theorem pyStrip_decomp_eq {x m y : List Char}
    (hx : ∀ c ∈ x, pyWs c = true) (hy : ∀ c ∈ y, pyWs c = true)
    (hm : ∀ c ∈ m, pyWs c = false) :
    pyStrip (x ++ m ++ y) = m := by
  unfold pyStrip
  rw [List.append_assoc, dropWhile_append_all hx]
  cases m with
  | nil =>
    simp only [List.nil_append]
    rw [dropWhile_all_nil hy]
    simp
  | cons c m2 =>
    have h1 : List.dropWhile pyWs ((c :: m2) ++ y) = (c :: m2) ++ y := by
      simp only [List.cons_append, List.dropWhile_cons, hm c (by simp)]
      simp
    rw [h1, List.reverse_append]
    have h2 : ∀ e ∈ y.reverse, pyWs e = true := fun e he => hy e (List.mem_reverse.mp he)
    rw [dropWhile_append_all h2]
    have h3 : (c :: m2).reverse = m2.reverse ++ [c] := by simp
    cases hr : (c :: m2).reverse with
    | nil => simp at hr
    | cons d rest =>
      have hd : d ∈ c :: m2 := by
        have : d ∈ (c :: m2).reverse := by rw [hr]; simp
        exact List.mem_reverse.mp this
      rw [List.dropWhile_cons, hm d hd]
      simp only [Bool.false_eq_true, if_false]
      rw [← hr, List.reverse_reverse]

/-- Every list splits as whitespace ++ `pyStrip` of it ++ whitespace. -/
theorem pyStrip_split (s : List Char) :
    ∃ x y, s = x ++ pyStrip s ++ y ∧
      (∀ c ∈ x, pyWs c = true) ∧ (∀ c ∈ y, pyWs c = true) := by
  refine ⟨s.takeWhile pyWs, ((s.dropWhile pyWs).reverse.takeWhile pyWs).reverse, ?_, ?_, ?_⟩
  · conv_lhs => rw [← List.takeWhile_append_dropWhile (p := pyWs) (l := s)]
    unfold pyStrip
    rw [List.append_assoc]
    congr 1
    conv_lhs => rw [← List.reverse_reverse (s.dropWhile pyWs)]
    conv_lhs => rw [← List.takeWhile_append_dropWhile (p := pyWs) (l := (s.dropWhile pyWs).reverse)]
    rw [List.reverse_append]
  · intro c hc
    exact List.mem_takeWhile_imp hc
  · intro c hc
    exact List.mem_takeWhile_imp (List.mem_reverse.mp hc)

/-- Characterization of the fully-anchored spliced pattern
`re.match(rf'^\s*{P}\s*$', line)` for a single-alternative pattern `P`. -/
theorem strict_single_iff (P : RE) (line : List Char) :
    reFull (.seq wsStar (.seq P wsStar)) line = true ↔
      ∃ x m y, line = x ++ m ++ y ∧ (∀ c ∈ x, pyWs c = true) ∧
        (∀ c ∈ y, pyWs c = true) ∧ Lang P m := by
  rw [reFull_iff]
  show (∃ u v, line = u ++ v ∧ StarLang (Lang wsRE) u ∧
      ∃ m w, v = m ++ w ∧ Lang P m ∧ StarLang (Lang wsRE) w) ↔ _
  constructor
  · rintro ⟨u, v, huv, hu, m, w, hvw, hm, hw⟩
    exact ⟨u, m, w, by rw [huv, hvw, List.append_assoc],
      StarLang_ws.mp hu, StarLang_ws.mp hw, hm⟩
  · rintro ⟨x, m, y, hs, hx, hy, hm⟩
    exact ⟨x, m ++ y, by rw [hs, List.append_assoc], StarLang_ws.mpr hx,
      m, y, rfl, hm, StarLang_ws.mpr hy⟩

/-- For a whitespace-free single-alternative pattern, the spliced
`^\s*{P}\s*$` form under `re.match` is the same as a full match of `P`
against the stripped line — this is the footing of the spec's description
of text-mode standalone-line removal. -/
theorem strict_single_strip {P : RE} (hP : P.noWs = true) (line : List Char) :
    reFull (.seq wsStar (.seq P wsStar)) line = reFull P (pyStrip line) := by
  have h : reFull (.seq wsStar (.seq P wsStar)) line = true ↔
      reFull P (pyStrip line) = true := by
    rw [strict_single_iff, reFull_iff]
    constructor
    · rintro ⟨x, m, y, hs, hx, hy, hm⟩
      have hmw : ∀ c ∈ m, pyWs c = false := noWs_sound hP hm
      rw [hs, pyStrip_decomp_eq hx hy hmw]
      exact hm
    · intro h
      obtain ⟨x, y, hs, hx, hy⟩ := pyStrip_split line
      exact ⟨x, pyStrip line, y, hs, hx, hy, h⟩
  cases h1 : reFull (.seq wsStar (.seq P wsStar)) line with
  | false =>
    cases h2 : reFull P (pyStrip line) with
    | false => rfl
    | true => exact absurd (h.mpr h2) (by simp [h1])
  | true => exact (h.mp h1).symm

/-! ### Pattern set and CSS selectors -/

/-- Worker for `wsSplit`. -/
def wsSplitAux : List Char → List Char → List (List Char)
  | [], acc => if acc.isEmpty then [] else [acc.reverse]
  | c :: rest, acc =>
    if pyWs c then
      if acc.isEmpty then wsSplitAux rest [] else acc.reverse :: wsSplitAux rest []
    else wsSplitAux rest (c :: acc)

/-- Python `str.split()` with no separator: split on whitespace runs,
dropping empty fields (used for the whitespace-separated `class`
attribute). -/
def wsSplit (s : List Char) : List (List Char) := wsSplitAux s []

/-- A simple compound CSS selector: optional tag name, optional id, and
a set of required class names.  This covers the repository's configured
selectors (`.complianceLinks`, `#footer-links`, `table.footer`, ...);
combinators and structural pseudo-classes are outside the model. -/
structure Selector where
  tagName : Option (List Char)
  idName : Option (List Char)
  classNames : List (List Char)
deriving Repr, DecidableEq

/-- Does an element (tag name and attribute list) match a selector?  Mirrors
`soup.select`: tag equality, `id` attribute equality, and membership of each
required class in the whitespace-separated `class` attribute. -/
def selMatches (sel : Selector) (tag : List Char)
    (attrs : List (List Char × List Char)) : Bool :=
  (match sel.tagName with
   | none => true
   | some t => t == tag) &&
  (match sel.idName with
   | none => true
   | some i => List.lookup "id".data attrs == some i) &&
  sel.classNames.all
    (fun cn => (wsSplit ((List.lookup "class".data attrs).getD [])).contains cn)

/-- The three pattern collections of the configuration (the value of
`load_privacy_patterns()` after the `.get(..., [])` defaulting in
`sanitize_content`, lines 35-37). -/
structure PatternSet where
  url_patterns : List RE
  text_patterns : List TextPattern
  selectors : List Selector

/-! ### Text-mode sanitizer (lines 80-103) -/

/-- Is a plain-text line dropped?  Lines 85-100: dropped when a URL pattern
is found anywhere in the line (`re.search`), or the line is a standalone
keyword per the spliced `^\s*{pattern}\s*$` match. -/
def lineDropped (ps : PatternSet) (line : List Char) : Bool :=
  ps.url_patterns.any (fun p => reSearch p line) ||
  ps.text_patterns.any (fun p => strictLineMatch p line)

/-- Lines 82-103: split into lines, drop the flagged ones, rejoin with
`'\n'.join`. -/
def sanitize_text (ps : PatternSet) (content : List Char) : List Char :=
  List.intercalate ['\n']
    ((splitlines content).filter (fun l => !lineDropped ps l))

/-- Modelled from the spec wording for text mode (used to compare the claim
against the code): a line is dropped iff it contains a URL-pattern match
anywhere, or its entirety — after stripping leading and trailing
whitespace — matches a `text_patterns` entry anchored at both ends. -/
def lineDroppedSpec (ps : PatternSet) (line : List Char) : Bool :=
  ps.url_patterns.any (fun p => reSearch p line) ||
  ps.text_patterns.any (fun p => reFull p.toRE (pyStrip line))

/-! ### splitlines lemmas -/

/-- Reduction of `splitlinesAux` on a cons cell that is not the start of a
`"\r\n"` pair. -/
theorem splitlinesAux_cons_eq {c : Char} {rest acc : List Char}
    (hno : ∀ r, c = '\r' → rest = '\n' :: r → False) :
    splitlinesAux (c :: rest) acc =
      if isLineBreak c then acc.reverse :: splitlinesAux rest []
      else splitlinesAux rest (c :: acc) := by
  rw [splitlinesAux.eq_def]
  split
  · rename_i heq
    exact absurd heq (by simp)
  · exfalso
    rename_i racc heq
    injection heq with h1 h2
    exact hno racc h1 h2
  · rename_i c2 rest2 hshape heq
    injection heq with h1 h2
    subst h1
    subst h2
    rfl

theorem splitlinesAux_no_breaks (s acc : List Char)
    (hacc : ∀ c ∈ acc, isLineBreak c = false) :
    ∀ l ∈ splitlinesAux s acc, ∀ c ∈ l, isLineBreak c = false := by
  induction s, acc using splitlinesAux.induct with
  | case1 acc h =>
    simp [splitlinesAux, h]
  | case2 acc h =>
    simp only [splitlinesAux, if_neg h]
    intro l hl c hc
    simp only [List.mem_singleton] at hl
    subst hl
    exact hacc c (List.mem_reverse.mp hc)
  | case3 rest acc ih =>
    show ∀ l ∈ acc.reverse :: splitlinesAux rest [], _
    intro l hl c hc
    rcases List.mem_cons.mp hl with h | h
    · subst h
      exact hacc c (List.mem_reverse.mp hc)
    · exact ih (by simp) l h c hc
  | case4 c rest acc hno hbrk ih =>
    rw [splitlinesAux_cons_eq (fun r hc hr => hno r hc hr), if_pos hbrk]
    intro l hl e he
    rcases List.mem_cons.mp hl with h | h
    · subst h
      exact hacc e (List.mem_reverse.mp he)
    · exact ih (by simp) l h e he
  | case5 c rest acc hno hbrk ih =>
    rw [splitlinesAux_cons_eq (fun r hc hr => hno r hc hr),
      if_neg (by simpa using hbrk)]
    refine ih ?_
    intro e he
    rcases List.mem_cons.mp he with h | h
    · subst h
      simpa using hbrk
    · exact hacc e h

/-- Every line produced by `splitlines` is free of line-boundary
characters. -/
theorem splitlines_no_breaks {s : List Char} :
    ∀ l ∈ splitlines s, ∀ c ∈ l, isLineBreak c = false :=
  splitlinesAux_no_breaks s [] (by simp)

theorem splitlinesAux_ne_nil {s acc : List Char} (h : s ≠ [] ∨ acc ≠ []) :
    splitlinesAux s acc ≠ [] := by
  induction s, acc using splitlinesAux.induct with
  | case1 acc hemp =>
    rcases h with h | h
    · exact absurd rfl h
    · exact absurd (List.isEmpty_iff.mp hemp) h
  | case2 acc hemp =>
    simp only [splitlinesAux, if_neg hemp]
    simp
  | case3 rest acc ih =>
    show acc.reverse :: _ ≠ []
    simp
  | case4 c rest acc hno hbrk ih =>
    rw [splitlinesAux_cons_eq (fun r hc hr => hno r hc hr), if_pos hbrk]
    simp
  | case5 c rest acc hno hbrk ih =>
    rw [splitlinesAux_cons_eq (fun r hc hr => hno r hc hr),
      if_neg (by simpa using hbrk)]
    exact ih (Or.inr (by simp))

theorem intercalate_cons_cons (sep a b : List Char) (t : List (List Char)) :
    List.intercalate sep (a :: b :: t) = a ++ sep ++ List.intercalate sep (b :: t) := by
  simp [List.intercalate]

/-- A break-free list of characters is a single line. -/
theorem splitlinesAux_no_break_eq {s : List Char}
    (h : ∀ c ∈ s, isLineBreak c = false) (acc : List Char) :
    splitlinesAux s acc =
      if (acc.reverse ++ s).isEmpty then [] else [acc.reverse ++ s] := by
  induction s generalizing acc with
  | nil =>
    show (if acc.isEmpty then ([] : List (List Char)) else [acc.reverse]) = _
    simp only [List.append_nil]
    by_cases hacc : acc.isEmpty
    · rw [if_pos hacc, if_pos (by simp [List.isEmpty_iff] at hacc ⊢; simp [hacc])]
    · rw [if_neg hacc, if_neg (by simp [List.isEmpty_iff] at hacc ⊢; simp [hacc])]
  | cons c rest ih =>
    have hc : isLineBreak c = false := h c (by simp)
    have hcr : ∀ r, c = '\r' → rest = '\n' :: r → False := by
      intro r hcc _
      rw [hcc] at hc
      exact absurd hc (by decide)
    rw [splitlinesAux_cons_eq hcr, if_neg (by simp [hc])]
    rw [ih (fun e he => h e (by simp [he]))]
    rw [if_neg (by simp), if_neg (by simp)]
    simp

theorem splitlinesAux_append_newline {l : List Char}
    (h : ∀ c ∈ l, isLineBreak c = false) (t acc : List Char) :
    splitlinesAux (l ++ '\n' :: t) acc =
      (acc.reverse ++ l) :: splitlinesAux t [] := by
  induction l generalizing acc with
  | nil =>
    have hno : ∀ r, '\n' = '\r' → t = '\n' :: r → False := by
      intro r hc _
      exact absurd hc (by decide)
    simp only [List.nil_append]
    rw [splitlinesAux_cons_eq hno, if_pos (by decide)]
    simp
  | cons c l2 ih =>
    have hc : isLineBreak c = false := h c (by simp)
    have hno : ∀ r, c = '\r' → l2 ++ '\n' :: t = '\n' :: r → False := by
      intro r hcc _
      rw [hcc] at hc
      exact absurd hc (by decide)
    simp only [List.cons_append]
    rw [splitlinesAux_cons_eq hno, if_neg (by simp [hc])]
    rw [ih (fun e he => h e (by simp [he]))]
    simp

/-- Splitting the `'\n'.join` of break-free lines recovers the lines,
provided the last line is not empty (a trailing empty line is collapsed by
the join/split round trip). -/
theorem splitlines_intercalate {L : List (List Char)}
    (hbf : ∀ l ∈ L, ∀ c ∈ l, isLineBreak c = false)
    (hlast : L.getLast? ≠ some []) :
    splitlines (List.intercalate ['\n'] L) = L := by
  induction L with
  | nil => simp [List.intercalate, splitlines, splitlinesAux]
  | cons l L2 ih =>
    cases L2 with
    | nil =>
      have hl : l ≠ [] := by
        intro hh
        rw [hh] at hlast
        simp at hlast
      have : List.intercalate ['\n'] [l] = l := by simp [List.intercalate]
      rw [this]
      unfold splitlines
      rw [splitlinesAux_no_break_eq (hbf l (by simp)) []]
      simp [hl]
    | cons l2 t =>
      rw [intercalate_cons_cons]
      unfold splitlines
      rw [List.append_assoc, List.singleton_append,
        splitlinesAux_append_newline (hbf l (by simp))]
      have ih2 := ih (fun e he => hbf e (by simp [he]))
        (by rwa [List.getLast?_cons_cons] at hlast)
      unfold splitlines at ih2
      rw [ih2]
      simp

/-- Joining the lines of `s` with `'\n'` recovers `s` when all line
boundaries in `s` are plain `'\n'` and `s` has no trailing newline. -/
theorem intercalate_splitlinesAux_id {s : List Char}
    (h1 : ∀ c ∈ s, isLineBreak c = true → c = '\n')
    (h2 : s.getLast? ≠ some '\n') :
    ∀ acc, List.intercalate ['\n'] (splitlinesAux s acc) = acc.reverse ++ s := by
  induction s with
  | nil =>
    intro acc
    show List.intercalate ['\n'] (if acc.isEmpty then [] else [acc.reverse]) = _
    by_cases hacc : acc.isEmpty
    · rw [if_pos hacc]
      simp [List.intercalate, List.isEmpty_iff.mp hacc]
    · rw [if_neg hacc]
      simp [List.intercalate]
  | cons c rest ih =>
    intro acc
    by_cases hc : c = '\n'
    · subst hc
      have hrest : rest ≠ [] := by
        intro hh
        subst hh
        simp at h2
      have hno : ∀ r, '\n' = '\r' → rest = '\n' :: r → False := by
        intro r hcc _
        exact absurd hcc (by decide)
      rw [splitlinesAux_cons_eq hno, if_pos (by decide)]
      obtain ⟨m, ms, hmm⟩ := List.exists_cons_of_ne_nil
        (@splitlinesAux_ne_nil rest [] (Or.inl hrest))
      rw [hmm, intercalate_cons_cons, ← hmm]
      have ihr := ih (fun e he hb => h1 e (by simp [he]) hb)
        (by
          obtain ⟨r1, r2, hr⟩ := List.exists_cons_of_ne_nil hrest
          subst hr
          rwa [List.getLast?_cons_cons] at h2) []
      rw [ihr]
      simp
    · have hcb : isLineBreak c = false := by
        cases hb : isLineBreak c with
        | false => rfl
        | true => exact absurd (h1 c (by simp) hb) hc
      have hno : ∀ r, c = '\r' → rest = '\n' :: r → False := by
        intro r hcc _
        rw [hcc] at hcb
        exact absurd hcb (by decide)
      rw [splitlinesAux_cons_eq hno, if_neg (by simp [hcb])]
      have ihr := ih (fun e he hb => h1 e (by simp [he]) hb)
        (by
          cases rest with
          | nil => simp
          | cons r1 r2 => rwa [List.getLast?_cons_cons] at h2) (c :: acc)
      rw [ihr]
      simp

/-! ### HTML tree model (BeautifulSoup document) -/

/-- A parsed HTML node: a text node or an element with tag name, attribute
list and children.  `html.parser` lowercases tag and attribute names, so
trees are understood post-parse. -/
inductive HNode where
  | text (s : List Char) : HNode
  | elem (tag : List Char) (attrs : List (List Char × List Char))
      (children : List HNode) : HNode

/-- The `href` attribute, `none` when absent (BeautifulSoup's
`a['href']` after a `href=True` filter, which only requires presence). -/
def hrefAttr (attrs : List (List Char × List Char)) : Option (List Char) :=
  List.lookup "href".data attrs

mutual

/-- Step 1 of the HTML branch (lines 44-46): `match.decompose()` for every
element matching a selector — the element and its whole subtree disappear. -/
def removeSelectors (sels : List Selector) : HNode → List HNode
  | .text s => [.text s]
  | .elem tag attrs ch =>
    if sels.any (fun sel => selMatches sel tag attrs) then []
    else [.elem tag attrs (removeSelectorsForest sels ch)]

def removeSelectorsForest (sels : List Selector) : List HNode → List HNode
  | [] => []
  | n :: ns => removeSelectors sels n ++ removeSelectorsForest sels ns

end

mutual

/-- The text-node strings of a subtree, in document order. -/
def nodeStrings : HNode → List (List Char)
  | .text s => [s]
  | .elem _ _ ch => forestStrings ch

def forestStrings : List HNode → List (List Char)
  | [] => []
  | n :: ns => nodeStrings n ++ forestStrings ns

end

/-- `a.get_text(" ", strip=True)` (line 51): strip each descendant string,
drop the ones that become empty, join with a single space. -/
def getTextStrip (ch : List HNode) : List Char :=
  List.intercalate " ".data
    (((forestStrings ch).map pyStrip).filter (fun s => !s.isEmpty))

/-- Tags that count as media for the unwrap decision (line 68). -/
def mediaTags : List (List Char) := ["img".data, "picture".data, "svg".data]

mutual

/-- Does this node, or one of its descendants, carry a media tag? -/
def hasMediaNode : HNode → Bool
  | .text _ => false
  | .elem tag _ ch => mediaTags.contains tag || hasMediaForest ch

def hasMediaForest : List HNode → Bool
  | [] => false
  | n :: ns => hasMediaNode n || hasMediaForest ns

end

/-- Lines 53-64: `matched` for one anchor — URL patterns searched against
`href` first, link text checked only when no URL pattern matched. -/
def anchorMatched (ps : PatternSet) (href : List Char) (ch : List HNode) : Bool :=
  let urlM := ps.url_patterns.any (fun p => reSearch p href)
  let textM := ps.text_patterns.any (fun p => reSearch p.toRE (getTextStrip ch))
  urlM || (!urlM && textM)

mutual

/-- Step 2 of the HTML branch (lines 49-72): for every `<a>` with an `href`
attribute, if matched then `a.unwrap()` when the anchor contains media
(children promoted in place) else `a.decompose()`; unmatched anchors and all
other nodes are kept with their children processed.  The source iterates
over the up-front `find_all('a', href=True)` list in document (pre-order)
order while mutating the tree; since an anchor's descendants come after it
in that order, every anchor is evaluated against its own pristine
(selector-cleaned) subtree, which is what this recursion computes.  This is
the loop's behavior on the runs where it completes; `html.parser` does nest
anchors, and when a matched media-free anchor contains another
`href`-anchor, `a.decompose()` wipes that inner anchor and the loop's next
`a['href']` on it raises — `linkLoopRaises` captures exactly those runs,
on which the `except` discards all link processing (see `sanitize_html`). -/
def processLinks (ps : PatternSet) : HNode → List HNode
  | .text s => [.text s]
  | .elem tag attrs ch =>
    if tag == "a".data && (hrefAttr attrs).isSome then
      if anchorMatched ps ((hrefAttr attrs).getD []) ch then
        if hasMediaForest ch then processLinksForest ps ch
        else []
      else [.elem tag attrs (processLinksForest ps ch)]
    else [.elem tag attrs (processLinksForest ps ch)]

def processLinksForest (ps : PatternSet) : List HNode → List HNode
  | [] => []
  | n :: ns => processLinks ps n ++ processLinksForest ps ns

end

/-- The whole HTML branch on a parsed document (lines 41-74): selector
removal first, then link evaluation. -/
def sanitize_html_forest (ps : PatternSet) (doc : List HNode) : List HNode :=
  processLinksForest ps (removeSelectorsForest ps.selectors doc)

/-- Attribute rendering for `str(soup)` (approximate: `key="value"` pairs in
stored order). -/
def renderAttrs (attrs : List (List Char × List Char)) : List Char :=
  attrs.foldl (fun acc kv => acc ++ ' ' :: kv.1 ++ '=' :: '"' :: kv.2 ++ ['"']) []

mutual

/-- Serialization of the tree back to a string (`str(soup)`, line 74),
approximated: every element gets an open and a close tag and text is emitted
raw.  The HTML-mode theorems are stated at tree level; rendering is used
only to complete the string-level pipeline. -/
def renderNode : HNode → List Char
  | .text s => s
  | .elem tag attrs ch =>
    '<' :: (tag ++ renderAttrs attrs ++ ['>']) ++ renderForest ch ++
      ('<' :: '/' :: (tag ++ ['>']))

def renderForest : List HNode → List Char
  | [] => []
  | n :: ns => renderNode n ++ renderForest ns

end

/-! ### Observations on trees (used to state the HTML theorems) -/

mutual

/-- No element of the subtree matches any of the selectors. -/
def selClean (sels : List Selector) : HNode → Bool
  | .text _ => true
  | .elem tag attrs ch =>
    !(sels.any (fun sel => selMatches sel tag attrs)) && selCleanForest sels ch

def selCleanForest (sels : List Selector) : List HNode → Bool
  | [] => true
  | n :: ns => selClean sels n && selCleanForest sels ns

end

mutual

/-- Every anchor with an `href` attribute in the subtree is unmatched
against the pattern set (evaluated over its own current children). -/
def linksClean (ps : PatternSet) : HNode → Bool
  | .text _ => true
  | .elem tag attrs ch =>
    (!(tag == "a".data && (hrefAttr attrs).isSome &&
        anchorMatched ps ((hrefAttr attrs).getD []) ch)) &&
      linksCleanForest ps ch

def linksCleanForest (ps : PatternSet) : List HNode → Bool
  | [] => true
  | n :: ns => linksClean ps n && linksCleanForest ps ns

end

mutual

/-- The subtree contains no anchor element carrying an `href` attribute. -/
def hrefAnchorFree : HNode → Bool
  | .text _ => true
  | .elem tag attrs ch =>
    !(tag == "a".data && (hrefAttr attrs).isSome) && hrefAnchorFreeForest ch

def hrefAnchorFreeForest : List HNode → Bool
  | [] => true
  | n :: ns => hrefAnchorFree n && hrefAnchorFreeForest ns

end

mutual

/-- No `href`-carrying anchor of the subtree has another `href`-carrying
anchor among its descendants.  On such documents the `find_all` loop can
never touch a decomposed anchor, so it completes and agrees with
`processLinks`; `html.parser` does produce nested anchors for nested `<a>`
markup, and those documents are handled by the `linkLoopRaises` error
path instead. -/
def noNestedAnchors : HNode → Bool
  | .text _ => true
  | .elem tag attrs ch =>
    if tag == "a".data && (hrefAttr attrs).isSome then hrefAnchorFreeForest ch
    else noNestedAnchorsForest ch

def noNestedAnchorsForest : List HNode → Bool
  | [] => true
  | n :: ns => noNestedAnchors n && noNestedAnchorsForest ns

end

mutual

/-- Number of media elements (`img`, `picture`, `svg`) in the subtree. -/
def mediaCount : HNode → Nat
  | .text _ => 0
  | .elem tag _ ch => (if mediaTags.contains tag then 1 else 0) + mediaCountForest ch

def mediaCountForest : List HNode → Nat
  | [] => 0
  | n :: ns => mediaCount n + mediaCountForest ns

end

mutual

/-- Does the `find_all('a', href=True)` loop of lines 49-72 raise on this
(selector-cleaned) subtree?  `a.decompose()` wipes the decomposed anchor's
whole subtree, so the loop raises (at `a['href']`) exactly when a matched
media-free anchor — evaluated, like every anchor, against its pristine
subtree, which pre-order processing guarantees — contains another
`href`-carrying anchor, which `find_all` listed after it.  Unwrapped and
kept anchors leave their descendants intact, so the scan continues below
them. -/
def linkLoopRaises (ps : PatternSet) : HNode → Bool
  | .text _ => false
  | .elem tag attrs ch =>
    if tag == "a".data && (hrefAttr attrs).isSome then
      if anchorMatched ps ((hrefAttr attrs).getD []) ch then
        if hasMediaForest ch then linkLoopRaisesForest ps ch
        else !hrefAnchorFreeForest ch
      else linkLoopRaisesForest ps ch
    else linkLoopRaisesForest ps ch

def linkLoopRaisesForest (ps : PatternSet) : List HNode → Bool
  | [] => false
  | n :: ns => linkLoopRaises ps n || linkLoopRaisesForest ps ns

end

mutual

/-- Does decomposing the matches of one selector (lines 44-46) raise?
`soup.select(selector)` materializes its match list up front in document
order; decomposing an outer match wipes any inner match, and
`match.decompose()` on the wiped element then raises.  So one selector's
pass raises exactly when some matching element has another matching
element among its descendants. -/
def selRaises (sel : Selector) : HNode → Bool
  | .text _ => false
  | .elem tag attrs ch =>
    if selMatches sel tag attrs then !selCleanForest [sel] ch
    else selRaisesForest sel ch

def selRaisesForest (sel : Selector) : List HNode → Bool
  | [] => false
  | n :: ns => selRaises sel n || selRaisesForest sel ns

end

/-- Does the selector-removal loop raise?  Selectors are processed one at a
time, each `select` running on the tree left by the previous selectors
(`removeSelectorsForest [s]` — selector matching is local to an element's
tag and attributes, so for the surviving tree the sequential removal agrees
with the all-at-once `removeSelectorsForest` used in
`sanitize_html_forest`). -/
def selectorPassRaises : List Selector → List HNode → Bool
  | [], _ => false
  | s :: rest, doc =>
    selRaisesForest s doc || selectorPassRaises rest (removeSelectorsForest [s] doc)

/-! ### HTML lemmas -/

theorem mediaCountForest_append (l1 l2 : List HNode) :
    mediaCountForest (l1 ++ l2) = mediaCountForest l1 + mediaCountForest l2 := by
  induction l1 with
  | nil => simp [mediaCountForest]
  | cons n ns ih =>
    show mediaCount n + mediaCountForest (ns ++ l2) = _
    rw [ih]
    show _ = mediaCount n + mediaCountForest ns + mediaCountForest l2
    omega

mutual

theorem hasMedia_zero {n : HNode} : hasMediaNode n = false ↔ mediaCount n = 0 := by
  cases n with
  | text s => simp [hasMediaNode, mediaCount]
  | elem tag attrs ch =>
    cases hc : mediaTags.contains tag with
    | true =>
      simp only [hasMediaNode, mediaCount, hc, if_true, Bool.true_or]
      constructor
      · intro h
        exact absurd h (by simp)
      · intro h
        omega
    | false =>
      simp only [hasMediaNode, mediaCount, hc, Bool.false_eq_true, if_false,
        Bool.false_or, Nat.zero_add]
      exact hasMediaForest_zero

theorem hasMediaForest_zero {l : List HNode} :
    hasMediaForest l = false ↔ mediaCountForest l = 0 := by
  cases l with
  | nil => simp [hasMediaForest, mediaCountForest]
  | cons n ns =>
    simp only [hasMediaForest, mediaCountForest, Bool.or_eq_false_iff, Nat.add_eq_zero]
    exact and_congr hasMedia_zero hasMediaForest_zero

end

mutual

theorem mediaCount_processLinks (ps : PatternSet) (n : HNode) :
    mediaCountForest (processLinks ps n) = mediaCount n := by
  cases n with
  | text s => simp [processLinks, mediaCountForest, mediaCount]
  | elem tag attrs ch =>
    cases hA : (tag == "a".data && (hrefAttr attrs).isSome) with
    | true =>
      have htag : tag = "a".data := by
        have h1 := hA
        simp only [Bool.and_eq_true, beq_iff_eq] at h1
        exact h1.1
      have hnm : mediaTags.contains tag = false := by
        rw [htag]
        decide
      cases hm : anchorMatched ps ((hrefAttr attrs).getD []) ch with
      | true =>
        cases hmed : hasMediaForest ch with
        | true =>
          simp only [processLinks, hA, hm, hmed, if_true]
          rw [mediaCountForest_processLinks]
          simp only [mediaCount, hnm, Bool.false_eq_true, if_false, Nat.zero_add]
        | false =>
          simp only [processLinks, hA, hm, hmed, if_true, Bool.false_eq_true, if_false]
          have h0 : mediaCountForest ch = 0 := hasMediaForest_zero.mp hmed
          simp only [mediaCountForest, mediaCount, hnm, Bool.false_eq_true, if_false, h0]
      | false =>
        simp only [processLinks, hA, hm, if_true, Bool.false_eq_true, if_false]
        simp only [mediaCountForest, mediaCount, Nat.add_zero]
        rw [mediaCountForest_processLinks]
    | false =>
      simp only [processLinks, hA, Bool.false_eq_true, if_false]
      simp only [mediaCountForest, mediaCount, Nat.add_zero]
      rw [mediaCountForest_processLinks]

theorem mediaCountForest_processLinks (ps : PatternSet) (l : List HNode) :
    mediaCountForest (processLinksForest ps l) = mediaCountForest l := by
  cases l with
  | nil => simp [processLinksForest, mediaCountForest]
  | cons n ns =>
    show mediaCountForest (processLinks ps n ++ processLinksForest ps ns) = _
    rw [mediaCountForest_append, mediaCount_processLinks, mediaCountForest_processLinks]
    rfl

end

theorem selCleanForest_append {sels : List Selector} {l1 l2 : List HNode} :
    selCleanForest sels (l1 ++ l2) =
      (selCleanForest sels l1 && selCleanForest sels l2) := by
  induction l1 with
  | nil => simp [selCleanForest]
  | cons n ns ih =>
    show (selClean sels n && selCleanForest sels (ns ++ l2)) = _
    rw [ih]
    show _ = (selClean sels n && selCleanForest sels ns && selCleanForest sels l2)
    rw [Bool.and_assoc]

theorem linksCleanForest_append {ps : PatternSet} {l1 l2 : List HNode} :
    linksCleanForest ps (l1 ++ l2) =
      (linksCleanForest ps l1 && linksCleanForest ps l2) := by
  induction l1 with
  | nil => simp [linksCleanForest]
  | cons n ns ih =>
    show (linksClean ps n && linksCleanForest ps (ns ++ l2)) = _
    rw [ih]
    show _ = (linksClean ps n && linksCleanForest ps ns && linksCleanForest ps l2)
    rw [Bool.and_assoc]

theorem hrefAnchorFreeForest_append {l1 l2 : List HNode} :
    hrefAnchorFreeForest (l1 ++ l2) =
      (hrefAnchorFreeForest l1 && hrefAnchorFreeForest l2) := by
  induction l1 with
  | nil => simp [hrefAnchorFreeForest]
  | cons n ns ih =>
    show (hrefAnchorFree n && hrefAnchorFreeForest (ns ++ l2)) = _
    rw [ih]
    show _ = (hrefAnchorFree n && hrefAnchorFreeForest ns && hrefAnchorFreeForest l2)
    rw [Bool.and_assoc]

mutual

/-- After step 1 no selector matches anywhere in the document. -/
theorem selClean_remove (sels : List Selector) (n : HNode) :
    selCleanForest sels (removeSelectors sels n) = true := by
  cases n with
  | text s => simp [removeSelectors, selCleanForest, selClean]
  | elem tag attrs ch =>
    cases hsel : sels.any (fun sel => selMatches sel tag attrs) with
    | true =>
      simp only [removeSelectors, hsel, if_true]
      rfl
    | false =>
      simp only [removeSelectors, hsel, Bool.false_eq_true, if_false]
      show (selClean sels (.elem tag attrs (removeSelectorsForest sels ch)) &&
        selCleanForest sels []) = true
      simp only [selClean, selCleanForest, hsel, Bool.not_false, Bool.true_and,
        Bool.and_true]
      exact selCleanForest_remove sels ch

theorem selCleanForest_remove (sels : List Selector) (l : List HNode) :
    selCleanForest sels (removeSelectorsForest sels l) = true := by
  cases l with
  | nil => rfl
  | cons n ns =>
    show selCleanForest sels (removeSelectors sels n ++ removeSelectorsForest sels ns) = true
    rw [selCleanForest_append, selClean_remove, selCleanForest_remove]
    rfl

end

mutual

/-- On a document without selector matches, step 1 is the identity. -/
theorem remove_id {sels : List Selector} {n : HNode}
    (h : selClean sels n = true) : removeSelectors sels n = [n] := by
  cases n with
  | text s => rfl
  | elem tag attrs ch =>
    simp only [selClean, Bool.and_eq_true, Bool.not_eq_eq_eq_not, Bool.not_true] at h
    simp only [removeSelectors, h.1, Bool.false_eq_true, if_false]
    rw [removeForest_id h.2]

theorem removeForest_id {sels : List Selector} {l : List HNode}
    (h : selCleanForest sels l = true) : removeSelectorsForest sels l = l := by
  cases l with
  | nil => rfl
  | cons n ns =>
    simp only [selCleanForest, Bool.and_eq_true] at h
    show removeSelectors sels n ++ removeSelectorsForest sels ns = n :: ns
    rw [remove_id h.1, removeForest_id h.2]
    rfl

end

mutual

/-- Step 2 never introduces a selector match: the elements it keeps are
elements of its input. -/
theorem selClean_processLinks (ps : PatternSet) {sels : List Selector} {n : HNode}
    (h : selClean sels n = true) :
    selCleanForest sels (processLinks ps n) = true := by
  cases n with
  | text s => simp [processLinks, selCleanForest, selClean]
  | elem tag attrs ch =>
    simp only [selClean, Bool.and_eq_true, Bool.not_eq_eq_eq_not, Bool.not_true] at h
    cases hA : (tag == "a".data && (hrefAttr attrs).isSome) with
    | true =>
      cases hm : anchorMatched ps ((hrefAttr attrs).getD []) ch with
      | true =>
        cases hmed : hasMediaForest ch with
        | true =>
          simp only [processLinks, hA, hm, hmed, if_true]
          exact selCleanForest_processLinks ps h.2
        | false =>
          simp only [processLinks, hA, hm, hmed, if_true, Bool.false_eq_true, if_false]
          rfl
      | false =>
        simp only [processLinks, hA, hm, if_true, Bool.false_eq_true, if_false]
        show (selClean sels (.elem tag attrs (processLinksForest ps ch)) &&
          selCleanForest sels []) = true
        simp only [selClean, selCleanForest, h.1, Bool.not_false, Bool.true_and,
          Bool.and_true]
        exact selCleanForest_processLinks ps h.2
    | false =>
      simp only [processLinks, hA, Bool.false_eq_true, if_false]
      show (selClean sels (.elem tag attrs (processLinksForest ps ch)) &&
        selCleanForest sels []) = true
      simp only [selClean, selCleanForest, h.1, Bool.not_false, Bool.true_and,
        Bool.and_true]
      exact selCleanForest_processLinks ps h.2

theorem selCleanForest_processLinks (ps : PatternSet) {sels : List Selector}
    {l : List HNode} (h : selCleanForest sels l = true) :
    selCleanForest sels (processLinksForest ps l) = true := by
  cases l with
  | nil => rfl
  | cons n ns =>
    simp only [selCleanForest, Bool.and_eq_true] at h
    show selCleanForest sels (processLinks ps n ++ processLinksForest ps ns) = true
    rw [selCleanForest_append, selClean_processLinks ps h.1,
      selCleanForest_processLinks ps h.2]
    rfl

end

mutual

theorem linksClean_of_anchorFree (ps : PatternSet) {n : HNode}
    (h : hrefAnchorFree n = true) : linksClean ps n = true := by
  cases n with
  | text s => rfl
  | elem tag attrs ch =>
    simp only [hrefAnchorFree, Bool.and_eq_true, Bool.not_eq_eq_eq_not,
      Bool.not_true] at h
    simp only [linksClean, h.1, Bool.false_and, Bool.not_false, Bool.true_and]
    exact linksCleanForest_of_anchorFree ps h.2

theorem linksCleanForest_of_anchorFree (ps : PatternSet) {l : List HNode}
    (h : hrefAnchorFreeForest l = true) : linksCleanForest ps l = true := by
  cases l with
  | nil => rfl
  | cons n ns =>
    simp only [hrefAnchorFreeForest, Bool.and_eq_true] at h
    show (linksClean ps n && linksCleanForest ps ns) = true
    rw [linksClean_of_anchorFree ps h.1, linksCleanForest_of_anchorFree ps h.2]
    rfl

end

mutual

/-- On a document whose `href`-anchors are all unmatched, step 2 is the
identity. -/
theorem processLinks_id {ps : PatternSet} {n : HNode}
    (h : linksClean ps n = true) : processLinks ps n = [n] := by
  cases n with
  | text s => rfl
  | elem tag attrs ch =>
    simp only [linksClean, Bool.and_eq_true, Bool.not_eq_eq_eq_not,
      Bool.not_true] at h
    cases hA : (tag == "a".data && (hrefAttr attrs).isSome) with
    | true =>
      have hm : anchorMatched ps ((hrefAttr attrs).getD []) ch = false := by
        rcases Bool.and_eq_false_iff.mp h.1 with h1 | h1
        · rw [hA] at h1
          exact absurd h1 (by simp)
        · exact h1
      simp only [processLinks, hA, hm, if_true, Bool.false_eq_true, if_false]
      rw [processLinksForest_id h.2]
    | false =>
      simp only [processLinks, hA, Bool.false_eq_true, if_false]
      rw [processLinksForest_id h.2]

theorem processLinksForest_id {ps : PatternSet} {l : List HNode}
    (h : linksCleanForest ps l = true) : processLinksForest ps l = l := by
  cases l with
  | nil => rfl
  | cons n ns =>
    simp only [linksCleanForest, Bool.and_eq_true] at h
    show processLinks ps n ++ processLinksForest ps ns = n :: ns
    rw [processLinks_id h.1, processLinksForest_id h.2]
    rfl

end

mutual

/-- On a document without nested `href`-anchors (the shape `html.parser`
guarantees), the output of step 2 contains no matched `href`-anchor. -/
theorem linksClean_processLinks (ps : PatternSet) {n : HNode}
    (h : noNestedAnchors n = true) :
    linksCleanForest ps (processLinks ps n) = true := by
  cases n with
  | text s => rfl
  | elem tag attrs ch =>
    cases hA : (tag == "a".data && (hrefAttr attrs).isSome) with
    | true =>
      have hch : hrefAnchorFreeForest ch = true := by
        have h2 := h
        simp only [noNestedAnchors, hA, if_true] at h2
        exact h2
      have hid : processLinksForest ps ch = ch :=
        processLinksForest_id (linksCleanForest_of_anchorFree ps hch)
      cases hm : anchorMatched ps ((hrefAttr attrs).getD []) ch with
      | true =>
        cases hmed : hasMediaForest ch with
        | true =>
          simp only [processLinks, hA, hm, hmed, if_true]
          rw [hid]
          exact linksCleanForest_of_anchorFree ps hch
        | false =>
          simp only [processLinks, hA, hm, hmed, if_true, Bool.false_eq_true, if_false]
          rfl
      | false =>
        simp only [processLinks, hA, hm, if_true, Bool.false_eq_true, if_false]
        rw [hid]
        show (linksClean ps (.elem tag attrs ch) && linksCleanForest ps []) = true
        simp only [linksClean, hA, hm, Bool.true_and, Bool.and_false,
          Bool.not_false, linksCleanForest, Bool.and_true]
        exact linksCleanForest_of_anchorFree ps hch
    | false =>
      have hch : noNestedAnchorsForest ch = true := by
        have h2 := h
        simp only [noNestedAnchors, hA, Bool.false_eq_true, if_false] at h2
        exact h2
      simp only [processLinks, hA, Bool.false_eq_true, if_false]
      show (linksClean ps (.elem tag attrs (processLinksForest ps ch)) &&
        linksCleanForest ps []) = true
      simp only [linksClean, hA, Bool.false_and, Bool.not_false, Bool.true_and,
        linksCleanForest, Bool.and_true]
      exact linksCleanForest_processLinks ps hch

theorem linksCleanForest_processLinks (ps : PatternSet) {l : List HNode}
    (h : noNestedAnchorsForest l = true) :
    linksCleanForest ps (processLinksForest ps l) = true := by
  cases l with
  | nil => rfl
  | cons n ns =>
    simp only [noNestedAnchorsForest, Bool.and_eq_true] at h
    show linksCleanForest ps (processLinks ps n ++ processLinksForest ps ns) = true
    rw [linksCleanForest_append, linksClean_processLinks ps h.1,
      linksCleanForest_processLinks ps h.2]
    rfl

end

mutual

theorem anchorFree_remove {sels : List Selector} {n : HNode}
    (h : hrefAnchorFree n = true) :
    hrefAnchorFreeForest (removeSelectors sels n) = true := by
  cases n with
  | text s => rfl
  | elem tag attrs ch =>
    simp only [hrefAnchorFree, Bool.and_eq_true, Bool.not_eq_eq_eq_not,
      Bool.not_true] at h
    cases hsel : sels.any (fun sel => selMatches sel tag attrs) with
    | true =>
      simp only [removeSelectors, hsel, if_true]
      rfl
    | false =>
      simp only [removeSelectors, hsel, Bool.false_eq_true, if_false]
      show (hrefAnchorFree (.elem tag attrs (removeSelectorsForest sels ch)) &&
        hrefAnchorFreeForest []) = true
      simp only [hrefAnchorFree, h.1, Bool.not_false, Bool.true_and,
        hrefAnchorFreeForest, Bool.and_true]
      exact anchorFreeForest_remove h.2

theorem anchorFreeForest_remove {sels : List Selector} {l : List HNode}
    (h : hrefAnchorFreeForest l = true) :
    hrefAnchorFreeForest (removeSelectorsForest sels l) = true := by
  cases l with
  | nil => rfl
  | cons n ns =>
    simp only [hrefAnchorFreeForest, Bool.and_eq_true] at h
    show hrefAnchorFreeForest (removeSelectors sels n ++ removeSelectorsForest sels ns) = true
    rw [hrefAnchorFreeForest_append, anchorFree_remove h.1, anchorFreeForest_remove h.2]
    rfl

end

theorem noNestedAnchorsForest_append {l1 l2 : List HNode} :
    noNestedAnchorsForest (l1 ++ l2) =
      (noNestedAnchorsForest l1 && noNestedAnchorsForest l2) := by
  induction l1 with
  | nil => simp [noNestedAnchorsForest]
  | cons n ns ih =>
    show (noNestedAnchors n && noNestedAnchorsForest (ns ++ l2)) = _
    rw [ih]
    show _ = (noNestedAnchors n && noNestedAnchorsForest ns && noNestedAnchorsForest l2)
    rw [Bool.and_assoc]

mutual

theorem noNested_remove {sels : List Selector} {n : HNode}
    (h : noNestedAnchors n = true) :
    noNestedAnchorsForest (removeSelectors sels n) = true := by
  cases n with
  | text s => rfl
  | elem tag attrs ch =>
    cases hsel : sels.any (fun sel => selMatches sel tag attrs) with
    | true =>
      simp only [removeSelectors, hsel, if_true]
      rfl
    | false =>
      simp only [removeSelectors, hsel, Bool.false_eq_true, if_false]
      show (noNestedAnchors (.elem tag attrs (removeSelectorsForest sels ch)) &&
        noNestedAnchorsForest []) = true
      cases hA : (tag == "a".data && (hrefAttr attrs).isSome) with
      | true =>
        have hch : hrefAnchorFreeForest ch = true := by
          have h2 := h
          simp only [noNestedAnchors, hA, if_true] at h2
          exact h2
        simp only [noNestedAnchors, hA, if_true, noNestedAnchorsForest, Bool.and_true]
        exact anchorFreeForest_remove hch
      | false =>
        have hch : noNestedAnchorsForest ch = true := by
          have h2 := h
          simp only [noNestedAnchors, hA, Bool.false_eq_true, if_false] at h2
          exact h2
        simp only [noNestedAnchors, hA, Bool.false_eq_true, if_false,
          noNestedAnchorsForest, Bool.and_true]
        exact noNestedForest_remove hch

theorem noNestedForest_remove {sels : List Selector} {l : List HNode}
    (h : noNestedAnchorsForest l = true) :
    noNestedAnchorsForest (removeSelectorsForest sels l) = true := by
  cases l with
  | nil => rfl
  | cons n ns =>
    simp only [noNestedAnchorsForest, Bool.and_eq_true] at h
    show noNestedAnchorsForest (removeSelectors sels n ++ removeSelectorsForest sels ns) = true
    rw [noNestedAnchorsForest_append, noNested_remove h.1, noNestedForest_remove h.2]
    rfl

end

/-- The HTML branch is idempotent at tree level on documents without
nested `href`-anchors — the domain on which the link loop completes
without touching a decomposed anchor. -/
theorem sanitize_html_idem (ps : PatternSet) {doc : List HNode}
    (h : noNestedAnchorsForest doc = true) :
    sanitize_html_forest ps (sanitize_html_forest ps doc) =
      sanitize_html_forest ps doc := by
  unfold sanitize_html_forest
  rw [removeForest_id (selCleanForest_processLinks ps
    (selCleanForest_remove ps.selectors doc))]
  exact processLinksForest_id
    (linksCleanForest_processLinks ps (noNestedForest_remove h))

/-- When nothing matches (no selector matches and no anchor matches), the
HTML branch returns the document unchanged. -/
theorem sanitize_html_id {ps : PatternSet} {doc : List HNode}
    (hsel : selCleanForest ps.selectors doc = true)
    (hlink : linksCleanForest ps doc = true) :
    sanitize_html_forest ps doc = doc := by
  unfold sanitize_html_forest
  rw [removeForest_id hsel, processLinksForest_id hlink]

/-! ### Text-mode and phrase lemmas -/

theorem anyCongr {α : Type} {l : List α} {f g : α → Bool}
    (h : ∀ a ∈ l, f a = g a) : l.any f = l.any g := by
  induction l with
  | nil => rfl
  | cons a t ih =>
    simp only [List.any_cons, h a (by simp)]
    rw [ih (fun b hb => h b (by simp [hb]))]

/-- On pattern sets whose text patterns are single-alternative and
whitespace-free, the line-drop test of the code agrees with the spec's
"stripped entirety matches, anchored at both ends" description. -/
theorem lineDropped_eq_spec {ps : PatternSet} {line : List Char}
    (halt : ∀ p ∈ ps.text_patterns, p.rest = [])
    (hws : ∀ p ∈ ps.text_patterns, p.first.noWs = true) :
    lineDropped ps line = lineDroppedSpec ps line := by
  unfold lineDropped lineDroppedSpec
  congr 1
  apply anyCongr
  intro p hp
  obtain ⟨f, r⟩ := p
  have hr : r = [] := halt ⟨f, r⟩ hp
  subst hr
  show strictLineMatch ⟨f, []⟩ line = reFull (TextPattern.toRE ⟨f, []⟩) (pyStrip line)
  have h1 : strictLineMatch ⟨f, []⟩ line = reFull (.seq wsStar (.seq f wsStar)) line := rfl
  have h2 : TextPattern.toRE ⟨f, []⟩ = f := rfl
  rw [h1, h2]
  exact strict_single_strip (hws ⟨f, []⟩ hp) line

/-- When every line survives and the content uses only `'\n'` boundaries
with no trailing newline, the text sanitizer is the identity. -/
theorem sanitize_text_keep_id {ps : PatternSet} {content : List Char}
    (hkeep : ∀ l ∈ splitlines content, lineDropped ps l = false)
    (hnl : ∀ c ∈ content, isLineBreak c = true → c = '\n')
    (hlast : content.getLast? ≠ some '\n') :
    sanitize_text ps content = content := by
  unfold sanitize_text
  have hf : (splitlines content).filter (fun l => !lineDropped ps l) =
      splitlines content := by
    apply List.filter_eq_self.mpr
    intro l hl
    simp [hkeep l hl]
  rw [hf]
  exact intercalate_splitlinesAux_id hnl hlast []

/-- The text sanitizer is idempotent whenever the surviving-line list does
not end with an empty line. -/
theorem sanitize_text_idem {ps : PatternSet} {content : List Char}
    (hlast : ((splitlines content).filter (fun l => !lineDropped ps l)).getLast? ≠
      some []) :
    sanitize_text ps (sanitize_text ps content) = sanitize_text ps content := by
  unfold sanitize_text
  have hbf : ∀ l ∈ (splitlines content).filter (fun l => !lineDropped ps l),
      ∀ c ∈ l, isLineBreak c = false := by
    intro l hl
    exact splitlines_no_breaks l (List.mem_of_mem_filter hl)
  rw [splitlines_intercalate hbf hlast]
  rw [List.filter_filter]
  congr 1
  apply List.filter_congr
  intro l hl
  simp

theorem ciOccurs_cons {p : List Char} {c : Char} {rest : List Char} :
    ciOccurs p (c :: rest) = (ciPrefixOf p (c :: rest) || ciOccurs p rest) := by
  unfold ciOccurs
  rw [List.tails_cons]
  rfl

theorem subPhraseGo_zero_id {p m : List Char} {s : List Char}
    (h : ciOccurs p s = false) : subPhraseGo p m 0 s = s := by
  induction s with
  | nil => rfl
  | cons c rest ih =>
    rw [ciOccurs_cons] at h
    obtain ⟨h1, h2⟩ := Bool.or_eq_false_iff.mp h
    show (if ciPrefixOf p (c :: rest) then m ++ subPhraseGo p m (p.length - 1) rest
      else c :: subPhraseGo p m 0 rest) = c :: rest
    rw [h1, if_neg (by simp)]
    rw [ih h2]

/-- A phrase that does not occur in `s` (case-insensitively) is not
replaced: `subPhrase` is the identity. -/
theorem subPhrase_id {p m s : List Char} (h : ciOccurs p s = false) :
    subPhrase p m s = s := by
  cases p with
  | nil => rfl
  | cons ph pt => exact subPhraseGo_zero_id h

/-- Phrase redaction leaves content without any phrase occurrence
unchanged. -/
theorem stripPhrases_id {phrases : List (List Char)} {s : List Char}
    (h : ∀ p ∈ phrases, ciOccurs p s = false) :
    stripPhrases phrases s = s := by
  induction phrases with
  | nil => rfl
  | cons p ps ih =>
    show stripPhrases ps (subPhrase p redactionMarker s) = s
    rw [subPhrase_id (h p (by simp))]
    exact ih (fun q hq => h q (by simp [hq]))

/-! ### Orchestrator -/

/-- The loaded pattern dictionary: each of the three keys may be absent
(`patterns.get('...', [])` in `sanitize_content` supplies the default). -/
structure PatternsConfig where
  url_patterns : Option (List RE)
  text_patterns : Option (List TextPattern)
  selectors : Option (List Selector)

/-- The dictionary `load_privacy_patterns` installs when the configuration
file cannot be read (line 23): url patterns and selectors present but empty,
no `text_patterns` key at all. -/
def fallbackPatterns : PatternsConfig := ⟨some [], none, some []⟩

/-- Resolution of a pattern dictionary by `sanitize_content` lines 35-37:
a missing collection is an empty collection. -/
def PatternsConfig.resolve (cfg : PatternsConfig) : PatternSet :=
  ⟨cfg.url_patterns.getD [], cfg.text_patterns.getD [], cfg.selectors.getD []⟩

/-- The HTML branch at string level (lines 39-78): parse, remove by
selector, evaluate links, serialize — all inside one `try`.  The `except`
at lines 76-78 returns the original `content` on any failure: a failing
parse (`none`), an exception in the selector-removal loop
(`selectorPassRaises`: decomposing a selector match nested inside another
match of the same selector), or an exception in the link loop
(`linkLoopRaises`: `a['href']` on an anchor wiped by an earlier
`a.decompose()`, which nested `<a>` markup produces under `html.parser`).
Only when nothing raises is the mutated tree serialized. -/
def sanitize_html (parseHtml : List Char → Option (List HNode))
    (ps : PatternSet) (content : List Char) : List Char :=
  match parseHtml content with
  | some doc =>
    if selectorPassRaises ps.selectors doc then content
    else if linkLoopRaisesForest ps (removeSelectorsForest ps.selectors doc) then
      content
    else renderForest (sanitize_html_forest ps doc)
  | none => content

/-- The embedding of `sanitize_content(content, content_type, source_id)`.
The ambient state the Python function reads from outside its parameter list
is passed explicitly: `parseHtml` (the BeautifulSoup parser inside the
`try`), `patterns` (the module-cached dictionary normally returned by
`load_privacy_patterns()`), and `envStripPhrases` (the raw value of the
`PRIVACY_STRIP_PHRASES` environment variable).  `source_id` is a declared
parameter of the Python function and is unused by it, as here. -/
def sanitize_content (parseHtml : List Char → Option (List HNode))
    (patterns : PatternsConfig) (envStripPhrases : List Char)
    (content : List Char) (content_type : List Char)
    (source_id : Option Int) : List Char :=
  if content.isEmpty then []
  else
    let ps := patterns.resolve
    let result :=
      if content_type == "html".data then sanitize_html parseHtml ps content
      else if content_type == "text".data then sanitize_text ps content
      else content
    stripPhrases (parseStripPhrases envStripPhrases) result

/-- When either mutation loop raises, the `except` returns the original
content — all tree work is discarded. -/
theorem sanitize_html_raise {parseHtml : List Char → Option (List HNode)}
    {ps : PatternSet} {content : List Char} {doc : List HNode}
    (hp : parseHtml content = some doc)
    (hraise : selectorPassRaises ps.selectors doc = true ∨
      linkLoopRaisesForest ps (removeSelectorsForest ps.selectors doc) = true) :
    sanitize_html parseHtml ps content = content := by
  unfold sanitize_html
  rw [hp]
  rcases hraise with h | h
  · simp only [h, if_true]
  · cases hsel : selectorPassRaises ps.selectors doc with
    | true => simp only [hsel, if_true]
    | false => simp only [hsel, Bool.false_eq_true, if_false, h, if_true]

mutual

/-- On an `href`-anchor-free subtree the link loop has nothing to touch. -/
theorem linkLoopRaises_of_anchorFree (ps : PatternSet) {n : HNode}
    (h : hrefAnchorFree n = true) : linkLoopRaises ps n = false := by
  cases n with
  | text s => rfl
  | elem tag attrs ch =>
    simp only [hrefAnchorFree, Bool.and_eq_true, Bool.not_eq_eq_eq_not,
      Bool.not_true] at h
    simp only [linkLoopRaises, h.1, Bool.false_eq_true, if_false]
    exact linkLoopRaisesForest_of_anchorFree ps h.2

theorem linkLoopRaisesForest_of_anchorFree (ps : PatternSet) {l : List HNode}
    (h : hrefAnchorFreeForest l = true) : linkLoopRaisesForest ps l = false := by
  cases l with
  | nil => rfl
  | cons n ns =>
    simp only [hrefAnchorFreeForest, Bool.and_eq_true] at h
    show (linkLoopRaises ps n || linkLoopRaisesForest ps ns) = false
    rw [linkLoopRaises_of_anchorFree ps h.1, linkLoopRaisesForest_of_anchorFree ps h.2]
    rfl

end

/-! ### Concrete fixtures for the claims -/

/-- Case-sensitive substring occurrence (for stating the concrete
examples). -/
def subOccurs (needle hay : List Char) : Bool :=
  hay.tails.any (fun t => needle.isPrefixOf t)

/-- The `"unsubscribe"` text pattern (single alternative, literal word). -/
def unsubPat : TextPattern := ⟨litWord "unsubscribe".data, []⟩

/-- Pattern set with just the `"unsubscribe"` text pattern. -/
def psU : PatternSet := ⟨[], [unsubPat], []⟩

/-- Pattern set whose only text pattern is `"unsubscribe|optout"` — a
top-level alternation. -/
def psAlt : PatternSet := ⟨[], [⟨litWord "unsubscribe".data, [litWord "optout".data]⟩], []⟩

/-- Pattern set with the URL pattern `"list-manage"`. -/
def psTrack : PatternSet := ⟨[litWord "list-manage".data], [], []⟩

/-- The empty pattern set. -/
def emptyPs : PatternSet := ⟨[], [], []⟩

/-- Configuration with all three keys present and empty. -/
def emptyCfg : PatternsConfig := ⟨some [], some [], some []⟩

/-- A parser stand-in that always fails (raises). -/
def parseNone : List Char → Option (List HNode) := fun _ => none

/-- A tracking-wrapped image: the spec's unwrap example. -/
def exDocC1 : List HNode :=
  [.elem "p".data []
    [.elem "a".data [("href".data, "http://list-manage.com/u".data)]
      [.elem "img".data [("src".data, "photo.jpg".data)] []]]]

/-! ### Claims -/

/-- C2: in HTML mode `sanitize_content` never raises: when the parse (the
`Option`-modelled `try` block) fails, the HTML stage returns the original
content unchanged instead of propagating the error. -/
theorem C2_html_fallback_on_error (parseHtml : List Char → Option (List HNode))
    (ps : PatternSet) (content : List Char) (h : parseHtml content = none) :
    sanitize_html parseHtml ps content = content := by
  unfold sanitize_html
  rw [h]

theorem C2_html_fallback_on_error_witness :
    parseNone "<div>".data = none ∧
      sanitize_html parseNone emptyPs "<div>".data = "<div>".data :=
  ⟨rfl, C2_html_fallback_on_error parseNone emptyPs "<div>".data rfl⟩

/-- C10: `sanitize_content` is total over partial pattern dictionaries — a
missing collection behaves exactly like an explicitly empty one, and the
loader's fallback dictionary (which has no `text_patterns` key) resolves to
the all-empty pattern set. -/
theorem C10_partial_patterns_default :
    (∀ (parseHtml : List Char → Option (List HNode)) (cfg : PatternsConfig)
        (env content ctype : List Char) (sid : Option Int),
      sanitize_content parseHtml cfg env content ctype sid =
        sanitize_content parseHtml
          ⟨some (cfg.url_patterns.getD []), some (cfg.text_patterns.getD []),
            some (cfg.selectors.getD [])⟩ env content ctype sid) ∧
    fallbackPatterns.resolve = emptyPs :=
  ⟨fun _ _ _ _ _ _ => rfl, rfl⟩

/-- C8 counterexample: two calls with identical explicit arguments of the
Python function (`content`, `content_type`, `source_id`) and identical
loaded patterns give different outputs when the ambient
`PRIVACY_STRIP_PHRASES` environment value differs, so the output is not a
function of the explicit inputs alone. -/
theorem C8_counterexample :
    sanitize_content parseNone emptyCfg [] "x".data "text".data none ≠
      sanitize_content parseNone emptyCfg "x".data "x".data "text".data none := by
  decide

/-- C8 (amended): `sanitize_content` is a deterministic function of the
content, the content type, the loaded pattern dictionary and the
environment phrase list; in particular it does not depend on `source_id`
(declared but unused) and retains no state between calls. -/
theorem C8_deterministic_given_ambient :
    ∀ (parseHtml : List Char → Option (List HNode)) (cfg : PatternsConfig)
      (env content ctype : List Char) (sid1 sid2 : Option Int),
      sanitize_content parseHtml cfg env content ctype sid1 =
        sanitize_content parseHtml cfg env content ctype sid2 :=
  fun _ _ _ _ _ _ _ => rfl

/-- C7 counterexample: `find_all('a', href=True)` only requires the `href`
attribute to be present, not non-empty — the anchor
`<a href="">Unsubscribe</a>` is evaluated and removed, not kept. -/
theorem C7_counterexample :
    sanitize_html_forest psU
      [.elem "a".data [("href".data, [])] [.text "Unsubscribe".data]] = [] := by
  rfl

/-- C7 (amended): link evaluation applies to anchors that HAVE an `href`
attribute of any value, the empty string included; an anchor with no
`href` attribute at all is never unwrapped or removed (its children are
still processed), while an empty-`href` anchor whose text matches is
evaluated like any other. -/
theorem C7_href_presence :
    (∀ (ps : PatternSet) (tag : List Char)
        (attrs : List (List Char × List Char)) (ch : List HNode),
      hrefAttr attrs = none →
      processLinks ps (.elem tag attrs ch) =
        [.elem tag attrs (processLinksForest ps ch)]) ∧
    (∀ (ps : PatternSet) (attrs : List (List Char × List Char)) (ch : List HNode),
      hrefAttr attrs = some [] →
      anchorMatched ps [] ch = true →
      hasMediaForest ch = false →
      processLinks ps (.elem "a".data attrs ch) = []) := by
  constructor
  · intro ps tag attrs ch h
    simp only [processLinks, h, Option.isSome_none, Bool.and_false,
      Bool.false_eq_true, if_false]
  · intro ps attrs ch h hm hmed
    have hgd : (hrefAttr attrs).getD [] = [] := by rw [h]; rfl
    simp only [processLinks, h, Option.isSome_some, Bool.and_true, beq_self_eq_true,
      if_true, hgd, hm, hmed, Bool.false_eq_true, if_false]
    simp only [Option.getD_some, hm, if_true]

theorem C7_href_presence_witness :
    processLinks psU (.elem "p".data [] [.text "hello".data]) =
      [.elem "p".data [] [.text "hello".data]] ∧
    processLinks psU (.elem "a".data [("href".data, [])] [.text "Unsubscribe".data]) = [] := by
  constructor
  · exact C7_href_presence.1 psU "p".data [] [.text "hello".data] rfl
  · exact C7_href_presence.2 psU [("href".data, [])] [.text "Unsubscribe".data] rfl
      (by decide) (by decide)

/-- A nested-anchor document: `html.parser` is a pure event tokenizer and
BeautifulSoup's `html.parser` builder nests tags exactly per the event
stream, so `<a href="u"><a href="v">Unsubscribe</a></a>` parses to an
`href`-anchor inside an `href`-anchor. -/
def nestedDoc : List HNode :=
  [.elem "a".data [("href".data, "u".data)]
    [.elem "a".data [("href".data, "v".data)] [.text "Unsubscribe".data]]]

/-- The markup of `nestedDoc`. -/
def nestedContent : List Char :=
  "<a href=\"u\"><a href=\"v\">Unsubscribe</a></a>".data

/-- A parser stand-in mapping `nestedContent` to `nestedDoc`. -/
def parseNested : List Char → Option (List HNode) :=
  fun s => if s = nestedContent then some nestedDoc else none

/-- C1 counterexample: the claim asserts the disposition for every HTML
input, but on `<a href="u"><a href="v">Unsubscribe</a></a>` the outer
anchor is matched and media-free, `a.decompose()` wipes the inner anchor,
the loop's next `a['href']` on it raises, and the `except` returns the
ORIGINAL content — the matched anchors and their text all survive. -/
theorem C1_counterexample :
    linkLoopRaisesForest psU nestedDoc = true ∧
    sanitize_html parseNested psU nestedContent = nestedContent ∧
    subOccurs "Unsubscribe".data
      (sanitize_html parseNested psU nestedContent) = true := by
  refine ⟨by decide, by decide, by decide⟩

/-- C1 (amended): link disposition in HTML mode, on runs where the link
loop completes.  (i) Link evaluation never deletes a media element: the
tree transform preserves the media count exactly.  (ii) An unmatched
`href`-anchor with no `href`-anchor below it is left untouched, raising
nothing.  (iii) A matched anchor with an image-like descendant and no
`href`-anchor below is unwrapped: exactly its children remain, in place,
raising nothing.  (iv) A matched anchor without media is removed with all
its descendants when its subtree holds no `href`-anchor; when it does, the
loop raises on the wiped inner anchor instead, and (v) the whole HTML
stage then falls back to the original content unchanged (nested `<a>`
markup under `html.parser` produces exactly these inputs).  (vi) On the
spec's concrete example the image survives while the anchor tag and the
tracking URL do not. -/
theorem C1_disposition_or_fallback :
    (∀ (ps : PatternSet) (doc : List HNode),
      mediaCountForest (processLinksForest ps doc) = mediaCountForest doc) ∧
    (∀ (ps : PatternSet) (tag : List Char)
        (attrs : List (List Char × List Char)) (ch : List HNode),
      (tag == "a".data && (hrefAttr attrs).isSome) = true →
      anchorMatched ps ((hrefAttr attrs).getD []) ch = false →
      hrefAnchorFreeForest ch = true →
      processLinks ps (.elem tag attrs ch) = [.elem tag attrs ch] ∧
        linkLoopRaises ps (.elem tag attrs ch) = false) ∧
    (∀ (ps : PatternSet) (tag : List Char)
        (attrs : List (List Char × List Char)) (ch : List HNode),
      (tag == "a".data && (hrefAttr attrs).isSome) = true →
      anchorMatched ps ((hrefAttr attrs).getD []) ch = true →
      hasMediaForest ch = true →
      hrefAnchorFreeForest ch = true →
      processLinks ps (.elem tag attrs ch) = ch ∧
        linkLoopRaises ps (.elem tag attrs ch) = false) ∧
    (∀ (ps : PatternSet) (tag : List Char)
        (attrs : List (List Char × List Char)) (ch : List HNode),
      (tag == "a".data && (hrefAttr attrs).isSome) = true →
      anchorMatched ps ((hrefAttr attrs).getD []) ch = true →
      hasMediaForest ch = false →
      processLinks ps (.elem tag attrs ch) = [] ∧
        linkLoopRaises ps (.elem tag attrs ch) = !hrefAnchorFreeForest ch) ∧
    (∀ (parseHtml : List Char → Option (List HNode)) (ps : PatternSet)
        (content : List Char) (doc : List HNode),
      parseHtml content = some doc →
      selectorPassRaises ps.selectors doc = false →
      linkLoopRaisesForest ps (removeSelectorsForest ps.selectors doc) = true →
      sanitize_html parseHtml ps content = content) ∧
    (sanitize_html_forest psTrack exDocC1 =
        [.elem "p".data [] [.elem "img".data [("src".data, "photo.jpg".data)] []]] ∧
      subOccurs "list-manage".data
        (renderForest (sanitize_html_forest psTrack exDocC1)) = false ∧
      subOccurs "<a".data
        (renderForest (sanitize_html_forest psTrack exDocC1)) = false ∧
      subOccurs "<img".data
        (renderForest (sanitize_html_forest psTrack exDocC1)) = true) := by
  refine ⟨fun ps doc => mediaCountForest_processLinks ps doc, ?_, ?_, ?_, ?_, ?_⟩
  · intro ps tag attrs ch hA hm hfree
    constructor
    · simp only [processLinks, hA, if_true, hm, Bool.false_eq_true, if_false]
      rw [processLinksForest_id (linksCleanForest_of_anchorFree ps hfree)]
    · simp only [linkLoopRaises, hA, if_true, hm, Bool.false_eq_true, if_false]
      exact linkLoopRaisesForest_of_anchorFree ps hfree
  · intro ps tag attrs ch hA hm hmed hfree
    constructor
    · simp only [processLinks, hA, hm, hmed, if_true]
      exact processLinksForest_id (linksCleanForest_of_anchorFree ps hfree)
    · simp only [linkLoopRaises, hA, hm, hmed, if_true]
      exact linkLoopRaisesForest_of_anchorFree ps hfree
  · intro ps tag attrs ch hA hm hmed
    constructor
    · simp only [processLinks, hA, hm, hmed, if_true, Bool.false_eq_true, if_false]
    · simp only [linkLoopRaises, hA, hm, hmed, if_true, Bool.false_eq_true, if_false]
  · intro parseHtml ps content doc hp h1 h2
    exact sanitize_html_raise hp (Or.inr h2)
  · refine ⟨by rfl, by decide, by decide, by decide⟩

theorem C1_disposition_or_fallback_witness :
    processLinks psTrack
        (.elem "a".data [("href".data, "http://list-manage.com/u".data)]
          [.elem "img".data [("src".data, "photo.jpg".data)] []]) =
      [.elem "img".data [("src".data, "photo.jpg".data)] []] ∧
    processLinks psTrack
        (.elem "a".data [("href".data, "http://list-manage.com/u".data)]
          [.text "click".data]) = [] ∧
    processLinks psTrack
        (.elem "a".data [("href".data, "http://example.com".data)]
          [.text "news".data]) =
      [.elem "a".data [("href".data, "http://example.com".data)]
        [.text "news".data]] ∧
    sanitize_html parseNested psU nestedContent = nestedContent := by
  refine ⟨?_, ?_, ?_, ?_⟩
  · exact (C1_disposition_or_fallback.2.2.1 psTrack "a".data
      [("href".data, "http://list-manage.com/u".data)]
      [.elem "img".data [("src".data, "photo.jpg".data)] []]
      (by decide) (by decide) (by decide) (by decide)).1
  · exact (C1_disposition_or_fallback.2.2.2.1 psTrack "a".data
      [("href".data, "http://list-manage.com/u".data)]
      [.text "click".data] (by decide) (by decide) (by decide)).1
  · exact (C1_disposition_or_fallback.2.1 psTrack "a".data
      [("href".data, "http://example.com".data)]
      [.text "news".data] (by decide) (by decide) (by decide)).1
  · exact C1_disposition_or_fallback.2.2.2.2.1 parseNested psU nestedContent
      nestedDoc rfl (by decide) (by decide)

/-- C3 counterexample: with the text pattern `"unsubscribe|optout"` the
spliced `^\s*unsubscribe|optout\s*$` anchors only the outer alternatives,
so the line `"unsubscribe now"` — whose stripped entirety does NOT match
the pattern — is nevertheless dropped by the code. -/
theorem C3_counterexample :
    lineDropped psAlt "unsubscribe now".data = true ∧
      lineDroppedSpec psAlt "unsubscribe now".data = false ∧
      sanitize_text psAlt "unsubscribe now".data = [] := by
  refine ⟨by decide, by decide, by decide⟩

/-- C3 (amended): for text patterns without top-level alternation whose
matches contain no whitespace, a line is dropped iff it contains a URL
pattern match anywhere or its whitespace-stripped entirety matches the
pattern anchored at both ends; with the single pattern `"unsubscribe"` the
standalone line `"Unsubscribe"` is dropped while the sentence
`"I will not unsubscribe from your great newsletter."` is kept verbatim.
For a pattern with top-level alternation the anchors attach only to the
first and last alternatives (see the counterexample). -/
theorem C3_standalone_line_precision :
    (∀ (ps : PatternSet) (line : List Char),
      (∀ p ∈ ps.text_patterns, p.rest = []) →
      (∀ p ∈ ps.text_patterns, p.first.noWs = true) →
      lineDropped ps line = lineDroppedSpec ps line) ∧
    (∀ ps : PatternSet, unsubPat ∈ ps.text_patterns →
      lineDropped ps "Unsubscribe".data = true) ∧
    (sanitize_text psU "Unsubscribe".data = [] ∧
      sanitize_text psU "I will not unsubscribe from your great newsletter.".data =
        "I will not unsubscribe from your great newsletter.".data) := by
  refine ⟨?_, ?_, by decide, by decide⟩
  · intro ps line h1 h2
    exact lineDropped_eq_spec h1 h2
  · intro ps hmem
    unfold lineDropped
    simp only [Bool.or_eq_true]
    right
    exact List.any_eq_true.mpr ⟨unsubPat, hmem, by decide⟩

theorem C3_standalone_line_precision_witness :
    lineDropped psU "please unsubscribe today".data =
      lineDroppedSpec psU "please unsubscribe today".data ∧
    lineDropped psU "Unsubscribe".data = true := by
  constructor
  · exact C3_standalone_line_precision.1 psU "please unsubscribe today".data
      (by decide) (by decide)
  · exact C3_standalone_line_precision.2.1 psU (by decide)

/-- The redaction-count example of the spec. -/
def exC4 : List Char :=
  "<div>Contact John Doe at <a href=\"mailto:personal@example.com\">personal@example.com</a></div>".data

/-- C4 counterexample: a later phrase's replacement can manufacture an
occurrence of an earlier phrase — with phrases `["[R", "Q"]` on content
`"Q"` the output `"[REDACTED]"` contains the phrase `"[R"`, so "every
occurrence of every phrase is replaced" fails as a universal statement. -/
theorem C4_counterexample :
    stripPhrases ["[R".data, "Q".data] "Q".data = "[REDACTED]".data ∧
      ciOccurs "[R".data (stripPhrases ["[R".data, "Q".data] "Q".data) = true := by
  refine ⟨by decide, by decide⟩

/-- C4 (amended): phrase redaction replaces phrases sequentially in list
order, each pass performing a literal (escaped), case-insensitive,
leftmost non-overlapping global replacement — in particular a phrase with
no occurrence changes nothing — and on the spec's example it produces
exactly 3 redaction markers and no occurrence of either phrase.  The
universal phrase-absence guarantee holds per pass, not across passes: a
later replacement may introduce text containing an earlier phrase. -/
theorem C4_phrase_redaction :
    (∀ (p s : List Char), ciOccurs p s = false →
      subPhrase p redactionMarker s = s) ∧
    (stripPhrases ["John Doe".data, "personal@example.com".data] exC4 =
        "<div>Contact [REDACTED] at <a href=\"mailto:[REDACTED]\">[REDACTED]</a></div>".data ∧
      ciCount redactionMarker
        (stripPhrases ["John Doe".data, "personal@example.com".data] exC4) = 3 ∧
      ciOccurs "John Doe".data
        (stripPhrases ["John Doe".data, "personal@example.com".data] exC4) = false ∧
      ciOccurs "personal@example.com".data
        (stripPhrases ["John Doe".data, "personal@example.com".data] exC4) = false) := by
  refine ⟨fun p s h => subPhrase_id h, by decide, by decide, by decide, by decide⟩

theorem C4_phrase_redaction_witness :
    subPhrase "unsubscribe".data redactionMarker "community news".data =
      "community news".data :=
  C4_phrase_redaction.1 "unsubscribe".data "community news".data (by decide)

/-- C5 counterexample: `sanitize_content` is not idempotent even with an
empty pattern set and no phrases: `"\n\n"` splits into two empty lines and
rejoins as `"\n"`, which on a second pass splits into one empty line and
rejoins as `""`. -/
theorem C5_counterexample :
    sanitize_content parseNone emptyCfg [] "\n\n".data "text".data none = "\n".data ∧
    sanitize_content parseNone emptyCfg []
        (sanitize_content parseNone emptyCfg [] "\n\n".data "text".data none)
        "text".data none ≠
      sanitize_content parseNone emptyCfg [] "\n\n".data "text".data none := by
  refine ⟨by decide, by decide⟩

/-- C5 (amended): with no redaction phrases, the HTML branch is idempotent
at tree level on documents without nested `href`-anchors, and
the text branch is idempotent whenever the surviving-line list does not end
with an empty line (the trailing-empty-line collapse and re-redaction of
phrase text inside the `[REDACTED]` marker are the only failure modes). -/
theorem C5_conditional_idempotence :
    (∀ (ps : PatternSet) (doc : List HNode), noNestedAnchorsForest doc = true →
      sanitize_html_forest ps (sanitize_html_forest ps doc) =
        sanitize_html_forest ps doc) ∧
    (∀ (ps : PatternSet) (content : List Char),
      ((splitlines content).filter (fun l => !lineDropped ps l)).getLast? ≠ some [] →
      sanitize_text ps (sanitize_text ps content) = sanitize_text ps content) :=
  ⟨fun ps _ h => sanitize_html_idem ps h, fun _ _ h => sanitize_text_idem h⟩

theorem C5_conditional_idempotence_witness :
    sanitize_text psU (sanitize_text psU "News today\nUnsubscribe\nMore".data) =
      sanitize_text psU "News today\nUnsubscribe\nMore".data ∧
    sanitize_html_forest psTrack (sanitize_html_forest psTrack exDocC1) =
      sanitize_html_forest psTrack exDocC1 := by
  constructor
  · exact C5_conditional_idempotence.2 psU "News today\nUnsubscribe\nMore".data
      (by decide)
  · exact C5_conditional_idempotence.1 psTrack exDocC1 (by decide)

/-- C6 counterexample: the text sanitizer rejoins with `'\n'`, not with the
original separator — non-matching text containing `"\r\n"` is not returned
byte-for-byte (the `"\r\n"` becomes `"\n"`), even with an empty pattern set
and no phrases. -/
theorem C6_counterexample :
    sanitize_content parseNone emptyCfg [] "a\r\nb".data "text".data none =
        "a\nb".data ∧
      sanitize_content parseNone emptyCfg [] "a\r\nb".data "text".data none ≠
        "a\r\nb".data := by
  refine ⟨by decide, by decide⟩

/-- C6 (amended): non-destructiveness on non-matching content.  (i) HTML
mode: a document in which no selector matches and every `href`-anchor is
unmatched is returned unchanged (at tree level).  (ii) Text mode: if no
line is dropped, every line boundary is a plain `'\n'`, and there is no
trailing newline, the content is returned byte-for-byte; text whose
boundaries include `"\r\n"` (or other Python line boundaries) is
normalized to `'\n'` joins.  (iii) Phrase redaction leaves content without
any phrase occurrence unchanged. -/
theorem C6_nondestructive :
    (∀ (ps : PatternSet) (doc : List HNode),
      selCleanForest ps.selectors doc = true →
      linksCleanForest ps doc = true →
      sanitize_html_forest ps doc = doc) ∧
    (∀ (ps : PatternSet) (content : List Char),
      (∀ l ∈ splitlines content, lineDropped ps l = false) →
      (∀ c ∈ content, isLineBreak c = true → c = '\n') →
      content.getLast? ≠ some '\n' →
      sanitize_text ps content = content) ∧
    (∀ (phrases : List (List Char)) (s : List Char),
      (∀ p ∈ phrases, ciOccurs p s = false) → stripPhrases phrases s = s) :=
  ⟨fun _ _ h1 h2 => sanitize_html_id h1 h2,
    fun _ _ h1 h2 h3 => sanitize_text_keep_id h1 h2 h3,
    fun _ _ h => stripPhrases_id h⟩

theorem C6_nondestructive_witness :
    sanitize_html_forest psU [.elem "p".data [] [.text "City news".data]] =
      [.elem "p".data [] [.text "City news".data]] ∧
    sanitize_text psU "Hello\nWorld".data = "Hello\nWorld".data ∧
    stripPhrases ["John Doe".data] "public meeting".data = "public meeting".data := by
  refine ⟨?_, ?_, ?_⟩
  · exact C6_nondestructive.1 psU [.elem "p".data [] [.text "City news".data]]
      (by decide) (by decide)
  · exact C6_nondestructive.2.1 psU "Hello\nWorld".data (by decide) (by decide)
      (by decide)
  · exact C6_nondestructive.2.2 ["John Doe".data] "public meeting".data (by decide)
